import Mathlib

/-!
Verification of the moltithread-audit-ledger core against its specification.

The development shallowly embeds the two core components of the repository:

* the redaction engine (`redaction.ts`): pattern catalogs, `isSensitiveKey`,
  `findSensitivePatterns`, `redactValue`, `redactObject`, `containsSecrets`;
* the ledger store (`src/ledger.ts`): `readEntries`, `appendEntry`, `makeId`,
  together with the zod record schema (`schema.ts`).

Strings are modelled as `List Char` (`Chars`).  JavaScript regular expressions
are modelled by a small executable backtracking engine (`Rx`, `runM`) faithful
to the ECMAScript semantics of the constructs that actually occur in the
catalogs: literals (with the `i` flag), character classes, alternation,
greedy bounded/unbounded repetition over one-character classes, `?`, word
boundaries, lookahead, and the `^`/`$` anchors.  `String.prototype.replace`
with a global regex is modelled by `replaceAll`.
-/

/-- Strings are modelled as lists of characters. -/
abbrev Chars := List Char

/-- The left brace character (written via its code point). -/
def lbrace : Char := Char.ofNat 123

/-- The right brace character (written via its code point). -/
def rbrace : Char := Char.ofNat 125

/-- ECMAScript word characters, the set `[A-Za-z0-9_]` underlying
regex word boundaries. -/
def isWordChar (c : Char) : Bool :=
  (97 ≤ c.toNat && c.toNat ≤ 122) || (65 ≤ c.toNat && c.toNat ≤ 90) ||
  (48 ≤ c.toNat && c.toNat ≤ 57) || c.toNat = 95

/-- ECMAScript whitespace, the set matched by regex class backslash-s and
stripped by `String.prototype.trim`: tab, LF, VT, FF, CR, space, NBSP,
BOM, and the Unicode space separators and line separators. -/
def isJsSpace (c : Char) : Bool :=
  (9 ≤ c.toNat && c.toNat ≤ 13) || c.toNat = 32 || c.toNat = 160 ||
  c.toNat = 0x1680 || (0x2000 ≤ c.toNat && c.toNat ≤ 0x200A) ||
  c.toNat = 0x2028 || c.toNat = 0x2029 || c.toNat = 0x202F ||
  c.toNat = 0x205F || c.toNat = 0x3000 || c.toNat = 0xFEFF

/-- ECMAScript `.` (dotAll off): any character except line terminators. -/
def isDotChar (c : Char) : Bool :=
  !(c.toNat = 10 || c.toNat = 13 || c.toNat = 0x2028 || c.toNat = 0x2029)

/-- ASCII lower-casing used to model the regex `i` flag on the ASCII
literals that occur in the catalogs. -/
def asciiLower (c : Char) : Char :=
  if 65 ≤ c.toNat && c.toNat ≤ 90 then Char.ofNat (c.toNat + 32) else c

/-- ASCII decimal digit test (regex class for digits). -/
def isDigitChar (c : Char) : Bool := 48 ≤ c.toNat && c.toNat ≤ 57

/-- Regular expressions, restricted to the constructs occurring in the
pattern catalogs of `redaction.ts`.  Repetition is only ever applied to
one-character classes there, which `starCls`/`repCls` mirror. -/
inductive Rx where
  /-- the empty regex -/
  | eps : Rx
  /-- a one-character class given by its membership predicate -/
  | cls (p : Char → Bool) : Rx
  /-- concatenation -/
  | seq (a b : Rx) : Rx
  /-- alternation: the left branch is preferred, as in ECMAScript -/
  | alt (a b : Rx) : Rx
  /-- greedy unbounded repetition of a one-character class -/
  | starCls (p : Char → Bool) : Rx
  /-- exactly `n` repetitions of a one-character class -/
  | repCls (p : Char → Bool) (n : Nat) : Rx
  /-- greedy option -/
  | opt (r : Rx) : Rx
  /-- word boundary -/
  | wordB : Rx
  /-- zero-width lookahead -/
  | look (r : Rx) : Rx
  /-- beginning-of-input anchor (multiline off) -/
  | bos : Rx
  /-- end-of-input anchor (multiline off) -/
  | eos : Rx

/-- The result/continuation type of the matcher: the `prev` character and
remaining input at a committed position. -/
abbrev MatchK := Option Char → Chars → Option (Option Char × Chars)

/-- Greedy unbounded repetition of a one-character class: the longest
consumable run is preferred, backtracking one character at a time. -/
def starRun (p : Char → Bool) (prev : Option Char) (s : Chars) (k : MatchK) :
    Option (Option Char × Chars) :=
  match s with
  | [] => k prev []
  | c :: cs =>
      if p c then (starRun p (some c) cs k) <|> k prev (c :: cs)
      else k prev (c :: cs)

/-- Exactly `n` repetitions of a one-character class. -/
def repRun (p : Char → Bool) (n : Nat) (prev : Option Char) (s : Chars)
    (k : MatchK) : Option (Option Char × Chars) :=
  match n with
  | 0 => k prev s
  | n + 1 =>
    match s with
    | [] => none
    | c :: cs => if p c then repRun p n (some c) cs k else none

/-- Backtracking matcher in continuation-passing style.  `prev` is the
character just before the current position (`none` at the start of the
input), needed by `\b` and `^`.  The continuation receives the updated
`prev` and the remaining input; the first `some` produced in ECMAScript
preference order (greedy, left-alternative-first) is returned, which is
exactly the match the JavaScript engine commits to. -/
def runM (r : Rx) (prev : Option Char) (s : Chars) (k : MatchK) :
    Option (Option Char × Chars) :=
  match r with
  | .eps => k prev s
  | .cls p =>
    match s with
    | [] => none
    | c :: cs => if p c then k (some c) cs else none
  | .seq a b => runM a prev s (fun p2 s2 => runM b p2 s2 k)
  | .alt a b => (runM a prev s k) <|> (runM b prev s k)
  | .starCls p => starRun p prev s k
  | .repCls p n => repRun p n prev s k
  | .opt r => (runM r prev s k) <|> k prev s
  | .wordB =>
      let wPrev := match prev with | none => false | some c => isWordChar c
      let wNext := match s with | [] => false | c :: _ => isWordChar c
      if wPrev != wNext then k prev s else none
  | .look r =>
      match runM r prev s (fun p2 s2 => some (p2, s2)) with
      | some _ => k prev s
      | none => none
  | .bos => match prev with | none => k prev s | some _ => none
  | .eos => match s with | [] => k prev [] | _ :: _ => none

/-- Attempted match of `r` at the current position: on success, the
`prev` character and remaining input after the committed match. -/
def matchEnd (r : Rx) (prev : Option Char) (s : Chars) :
    Option (Option Char × Chars) :=
  runM r prev s (fun p2 s2 => some (p2, s2))

/-- The text matched by `r` at the current position, if any (the length
of the committed match is the number of consumed characters). -/
def matchedHere (r : Rx) (prev : Option Char) (s : Chars) : Option Chars :=
  (matchEnd r prev s).map (fun pr => s.take (s.length - pr.2.length))

/-- Leftmost match of `r` in `s` (scanning position by position, as the
engine does for an unanchored regex): the matched text, if any.  Models
`String.prototype.match` (no `g` flag) restricted to `match[0]`. -/
def firstMatchFrom (r : Rx) (prev : Option Char) (s : Chars) : Option Chars :=
  match s with
  | [] => matchedHere r prev []
  | c :: cs => (matchedHere r prev (c :: cs)).orElse
      (fun _ => firstMatchFrom r (some c) cs)

/-- `regex.test(s)` / `s.match(regex)` success. -/
def rxTest (r : Rx) (s : Chars) : Bool := (firstMatchFrom r none s).isSome

/-- `String.prototype.replace` with the global version of `r`: every
non-overlapping leftmost match is replaced by `repl`; after an empty
match the scan advances one character, as in ECMAScript.  The scan
consumes at least one character per step, so the `fuel` parameter is
irrelevant as long as it exceeds the length of `s` (see
`replaceAll`). -/
def replaceFrom (r : Rx) (repl : Chars) (fuel : Nat) (prev : Option Char)
    (s : Chars) : Chars :=
  match fuel with
  | 0 => s
  | fuel + 1 =>
    match matchEnd r prev s with
    | some (p2, rest) =>
      let n := s.length - rest.length
      if n = 0 then
        match s with
        | [] => repl
        | c :: cs => repl ++ c :: replaceFrom r repl fuel (some c) cs
      else
        repl ++ replaceFrom r repl fuel p2 (s.drop n)
    | none =>
      match s with
      | [] => []
      | c :: cs => c :: replaceFrom r repl fuel (some c) cs

/-- Global replacement over a whole string. -/
def replaceAll (r : Rx) (repl : Chars) (s : Chars) : Chars :=
  replaceFrom r repl (s.length + 1) none s

/-! Helpers to build the patterns in a form that mirrors the regex
sources character by character. -/

/-- A literal character. -/
def rch (c : Char) : Rx := .cls (fun d => d = c)

/-- A case-insensitive literal character (ASCII folding, `i` flag). -/
def rchI (c : Char) : Rx := .cls (fun d => asciiLower d = asciiLower c)

/-- Concatenation of a list of regexes. -/
def rcat (l : List Rx) : Rx := l.foldr .seq .eps

/-- A literal string. -/
def rstr (s : String) : Rx := rcat (s.data.map rch)

/-- A case-insensitive literal string (`i` flag). -/
def rstrI (s : String) : Rx := rcat (s.data.map rchI)

/-- Alternation of a non-empty list (first alternative preferred). -/
def raltL : List Rx → Rx
  | [] => .eps
  | [r] => r
  | r :: rs => .alt r (raltL rs)

/-- `p+` (greedy). -/
def rplus (p : Char → Bool) : Rx := .seq (.cls p) (.starCls p)

/-- The regex quantifier of shape `{n,}` (greedy). -/
def repGe (p : Char → Bool) (n : Nat) : Rx := .seq (.repCls p n) (.starCls p)

/-- Membership of a character in an explicit list. -/
def inList (cs : List Char) (c : Char) : Bool := cs.contains c

/-! ## Pattern catalogs (redaction.ts) -/

/-- Class `[A-Za-z0-9]`. -/
def clsAlnum (c : Char) : Bool :=
  isDigitChar c || (65 ≤ c.toNat && c.toNat ≤ 90) || (97 ≤ c.toNat && c.toNat ≤ 122)

/-- Class `[a-z]`. -/
def clsLower (c : Char) : Bool := 97 ≤ c.toNat && c.toNat ≤ 122

/-- Class `[A-Z]`. -/
def clsUpper (c : Char) : Bool := 65 ≤ c.toNat && c.toNat ≤ 90

/-- Class `[0-9A-Z]`. -/
def clsUpperDigit (c : Char) : Bool := isDigitChar c || clsUpper c

/-- Class `[A-Za-z0-9\-_\.]` (Bearer token body). -/
def clsBearerTok (c : Char) : Bool := clsAlnum c || c = '-' || c = '_' || c = '.'

/-- Class `[A-Za-z0-9/+=]` (AWS-secret-shaped strings, Basic auth body). -/
def clsB64 (c : Char) : Bool := clsAlnum c || c = '/' || c = '+' || c = '='

/-- Class `[a-fA-F0-9]`. -/
def clsHex (c : Char) : Bool :=
  isDigitChar c || (97 ≤ c.toNat && c.toNat ≤ 102) || (65 ≤ c.toNat && c.toNat ≤ 70)

/-- Class `[A-Za-z0-9\-_]` (JWT / SendGrid segment body). -/
def clsUrlB64 (c : Char) : Bool := clsAlnum c || c = '-' || c = '_'

/-- Class `[A-Za-z0-9\-]` (Slack token body). -/
def clsSlackTok (c : Char) : Bool := clsAlnum c || c = '-'

/-- Negated class `[^\s"',;]` (inline key=value value body). -/
def clsKvValue (c : Char) : Bool :=
  !(isJsSpace c || c = '"' || c = '\'' || c = ',' || c = ';')

/-- The optional `[_-]?` fragment of several patterns. -/
def optUD : Rx := .opt (.cls (inList ['_', '-']))

/-- Source: the regex (with `i` flag) matching Bearer auth header values,
word boundary, literal `Bearer`, whitespace, then 20 or more token
characters up to a word boundary. -/
def rxBearer : Rx :=
  rcat [.wordB, rstrI "Bearer", rplus isJsSpace, repGe clsBearerTok 20, .wordB]

/-- Source: the regex for AWS access keys: `AKIA` followed by exactly 16
characters of `[0-9A-Z]`, in word boundaries. -/
def rxAkia : Rx := rcat [.wordB, rstr "AKIA", .repCls clsUpperDigit 16, .wordB]

/-- Source: the regex for AWS secret keys: exactly 40 characters of
`[A-Za-z0-9/+=]` in word boundaries. -/
def rxAwsSecret : Rx := rcat [.wordB, .repCls clsB64 40, .wordB]

/-- Source: the regex for GitHub tokens: one of the `gh?` prefixes, an
underscore, then 36 or more alphanumerics, in word boundaries. -/
def rxGithub : Rx :=
  rcat [.wordB, raltL [rstr "ghp", rstr "gho", rstr "ghu", rstr "ghs", rstr "ghr"],
        rch '_', repGe clsAlnum 36, .wordB]

/-- Source: the regex for Slack tokens: `xox` then one of `baprs`, a dash,
then 10 or more of `[A-Za-z0-9\-]`, in word boundaries. -/
def rxSlack : Rx :=
  rcat [.wordB, rstr "xox", .cls (inList ['b', 'a', 'p', 'r', 's']), rch '-',
        repGe clsSlackTok 10, .wordB]

/-- Source: the generic API key regex: a word boundary, three lookaheads
requiring a lowercase letter, an uppercase letter and a digit somewhere in
the remainder of the line, then 32 or more alphanumerics up to a word
boundary. -/
def rxGenericApiKey : Rx :=
  rcat [.wordB,
        .look (.seq (.starCls isDotChar) (.cls clsLower)),
        .look (.seq (.starCls isDotChar) (.cls clsUpper)),
        .look (.seq (.starCls isDotChar) (.cls isDigitChar)),
        repGe clsAlnum 32, .wordB]

/-- Source: the regex for long hex strings: 64 or more hex characters in
word boundaries. -/
def rxHex64 : Rx := rcat [.wordB, repGe clsHex 64, .wordB]

/-- Source: the PEM private key header regex with optional `RSA`. -/
def rxPemRsa : Rx :=
  rcat [rstr "-----BEGIN", rplus isJsSpace,
        .opt (.seq (rstr "RSA") (rplus isJsSpace)),
        rstr "PRIVATE", rplus isJsSpace, rstr "KEY-----"]

/-- Source: the PEM EC private key header regex. -/
def rxPemEc : Rx :=
  rcat [rstr "-----BEGIN", rplus isJsSpace, rstr "EC", rplus isJsSpace,
        rstr "PRIVATE", rplus isJsSpace, rstr "KEY-----"]

/-- Source: the PEM OPENSSH private key header regex. -/
def rxPemOpenssh : Rx :=
  rcat [rstr "-----BEGIN", rplus isJsSpace, rstr "OPENSSH", rplus isJsSpace,
        rstr "PRIVATE", rplus isJsSpace, rstr "KEY-----"]

/-- Source: the JWT regex: three dot-separated url-base64 segments, the
first two starting with `eyJ`, in word boundaries. -/
def rxJwt : Rx :=
  rcat [.wordB, rstr "eyJ", rplus clsUrlB64, rch '.', rstr "eyJ",
        rplus clsUrlB64, rch '.', rplus clsUrlB64, .wordB]

/-- Source: the Basic auth header regex (with `i` flag): literal `Basic`,
whitespace, then 20 or more of `[A-Za-z0-9+/=]` in word boundaries. -/
def rxBasic : Rx :=
  rcat [.wordB, rstrI "Basic", rplus isJsSpace, repGe clsB64 20, .wordB]

/-- Source: the Stripe key regex: `sk`/`pk`, `_`, `live`/`test`, `_`, then
24 or more alphanumerics, in word boundaries. -/
def rxStripe : Rx :=
  rcat [.wordB, raltL [rstr "sk", rstr "pk"], rch '_',
        raltL [rstr "live", rstr "test"], rch '_', repGe clsAlnum 24, .wordB]

/-- Source: the SendGrid/Twilio style key regex: `SG.`, 22 or more segment
characters, a dot, 22 or more segment characters, in word boundaries. -/
def rxSendgrid : Rx :=
  rcat [.wordB, rstr "SG", rch '.', repGe clsUrlB64 22, rch '.',
        repGe clsUrlB64 22, .wordB]

/-- Source: the inline `key=value` / `key: value` regex (with `i` flag):
one of the sensitive key words, optional whitespace, `=` or `:`, optional
whitespace, an optional quote, then 4 or more non-delimiter characters and
an optional quote. -/
def rxInlineKv : Rx :=
  rcat [.wordB,
        raltL [rstrI "password", rstrI "passwd", rstrI "pwd", rstrI "token",
               rcat [rstrI "api", optUD, rstrI "key"], rstrI "secret",
               rcat [rstrI "auth", optUD, rstrI "token"],
               rcat [rstrI "access", optUD, rstrI "token"]],
        .starCls isJsSpace, .cls (inList ['=', ':']), .starCls isJsSpace,
        .opt (.cls (inList ['"', '\''])), repGe clsKvValue 4,
        .opt (.cls (inList ['"', '\'']))]

/-- `SENSITIVE_VALUE_PATTERNS`, in source order. -/
def SENSITIVE_VALUE_PATTERNS : List Rx :=
  [rxBearer, rxAkia, rxAwsSecret, rxGithub, rxSlack, rxGenericApiKey,
   rxHex64, rxPemRsa, rxPemEc, rxPemOpenssh, rxJwt, rxBasic, rxStripe,
   rxSendgrid, rxInlineKv]

/-- An anchored, case-insensitive whole-key pattern `^(...)$`. -/
def keyRx (alts : List Rx) : Rx := rcat [.bos, raltL alts, .eos]

/-- `SENSITIVE_KEY_PATTERNS`, in source order; each is an anchored
case-insensitive alternation of whole key names. -/
def SENSITIVE_KEY_PATTERNS : List Rx :=
  [keyRx [rcat [rstrI "api", optUD, rstrI "key"], rstrI "apikey"],
   keyRx [rcat [rstrI "auth", optUD, rstrI "token"], rstrI "authtoken"],
   keyRx [rcat [rstrI "access", optUD, rstrI "token"], rstrI "accesstoken"],
   keyRx [rcat [rstrI "refresh", optUD, rstrI "token"], rstrI "refreshtoken"],
   keyRx [rcat [rstrI "bearer", optUD, rstrI "token"], rstrI "bearertoken"],
   keyRx [rstrI "secret", rcat [rstrI "secret", optUD, rstrI "key"], rstrI "secretkey"],
   keyRx [rstrI "password", rstrI "passwd", rstrI "pwd"],
   keyRx [rstrI "token"],
   keyRx [rstrI "ct0"],
   keyRx [rcat [rstrI "private", optUD, rstrI "key"], rstrI "privatekey"],
   keyRx [rcat [rstrI "session", optUD, rstrI "id"], rstrI "sessionid"],
   keyRx [rcat [rstrI "session", optUD, rstrI "token"], rstrI "sessiontoken"],
   keyRx [rstrI "cookie", rstrI "cookies"],
   keyRx [rstrI "authorization"],
   keyRx [rstrI "credential", rstrI "credentials"],
   keyRx [rcat [rstrI "client", optUD, rstrI "secret"], rstrI "clientsecret"],
   keyRx [rcat [rstrI "signing", optUD, rstrI "key"], rstrI "signingkey"],
   keyRx [rcat [rstrI "encryption", optUD, rstrI "key"], rstrI "encryptionkey"]]

/-- `DEFAULT_REPLACEMENT`. -/
def DEFAULT_REPLACEMENT : Chars := "[REDACTED]".data

/-- `isSensitiveKey(key, extraPatterns)`: the key matches a built-in or
caller-supplied key pattern. -/
def isSensitiveKey (key : Chars) (extraPatterns : List Rx) : Bool :=
  (SENSITIVE_KEY_PATTERNS ++ extraPatterns).any (fun p => rxTest p key)

/-- The truncated preview of a match (`slice(0, 20) + "..."` for matches
longer than 20 characters). -/
def previewOfMatch (m : Chars) : Chars :=
  if m.length > 20 then m.take 20 ++ "...".data else m

/-- `findSensitivePatterns(value, extraPatterns)`: for each pattern (in
catalog order), the truncated preview of its leftmost match, if any. -/
def findSensitivePatterns (value : Chars) (extraPatterns : List Rx) : List Chars :=
  (SENSITIVE_VALUE_PATTERNS ++ extraPatterns).filterMap
    (fun p => (firstMatchFrom p none value).map previewOfMatch)

/-- `redactValue(value, replacement, extraPatterns)`: each pattern in
catalog order is applied as a global replacement over the progressively
redacted string. -/
def redactValue (value : Chars) (replacement : Chars) (extraPatterns : List Rx) :
    Chars :=
  (SENSITIVE_VALUE_PATTERNS ++ extraPatterns).foldl
    (fun acc p => replaceAll p replacement acc) value

/-! ## JSON-shaped values and the recursive redaction walk -/

/-- JSON-shaped structured values: the tree grammar that `redactObject`
walks (null/undefined collapse to `null`: both pass through unchanged). -/
inductive Json where
  | null : Json
  | bool (b : Bool) : Json
  | num (n : Int) : Json
  | str (s : Chars) : Json
  | arr (items : List Json) : Json
  | obj (entries : List (Chars × Json)) : Json

/-- Redaction mode. -/
inductive RedactMode where
  | redact : RedactMode
  | strict : RedactMode
deriving DecidableEq, Repr

/-- `RedactOptions`, with all defaults made explicit. -/
structure RedactOptions where
  mode : RedactMode
  extraKeyPatterns : List Rx
  extraValuePatterns : List Rx
  replacement : Chars

/-- Decimal digit character. -/
def digitChar (n : Nat) : Char :=
  match n with
  | 0 => '0' | 1 => '1' | 2 => '2' | 3 => '3' | 4 => '4'
  | 5 => '5' | 6 => '6' | 7 => '7' | 8 => '8' | _ => '9'

/-- Fuelled digit accumulator for `natChars`; the fuel only needs to
exceed the number of decimal digits. -/
def natCharsAux (fuel n : Nat) (acc : Chars) : Chars :=
  match fuel with
  | 0 => acc
  | fuel + 1 =>
    if n < 10 then digitChar n :: acc
    else natCharsAux fuel (n / 10) (digitChar (n % 10) :: acc)

/-- Decimal rendering of a natural number (JS number-to-string for the
array indices interpolated into dotted paths). -/
def natChars (n : Nat) : Chars := natCharsAux (n + 1) n []

/-- Is this value a non-empty string?  (The test guarding key-based
redaction in the object branch of `processValue`.) -/
def isNonemptyStr : Json → Bool
  | .str s => !s.isEmpty
  | _ => false

mutual

/-- The recursive walk of `redactObject` (the inner `processValue`),
returning the processed value together with the `detectedSecrets` entries
pushed during the walk, in push order.  In `redact` mode the detected
list is always empty, as in the source. -/
def processValue (o : RedactOptions) : Json → Chars → Json × List Chars
  | .null, _ => (.null, [])
  | .bool b, _ => (.bool b, [])
  | .num n, _ => (.num n, [])
  | .str s, keyPath =>
      let pats := findSensitivePatterns s o.extraValuePatterns
      if pats.isEmpty then (.str s, [])
      else if o.mode = .strict then
        (.str s, [keyPath ++ ": ".data ++ List.intercalate ", ".data pats])
      else (.str (redactValue s o.replacement o.extraValuePatterns), [])
  | .arr items, keyPath =>
      let r := processArr o items keyPath 0
      (.arr r.1, r.2)
  | .obj entries, keyPath =>
      let r := processObj o entries keyPath
      (.obj r.1, r.2)

/-- Element-wise processing of arrays, with `[index]` path suffixes. -/
def processArr (o : RedactOptions) :
    List Json → Chars → Nat → List Json × List Chars
  | [], _, _ => ([], [])
  | j :: rest, keyPath, i =>
      let r1 := processValue o j (keyPath ++ '[' :: natChars i ++ [']'])
      let r2 := processArr o rest keyPath (i + 1)
      (r1.1 :: r2.1, r1.2 ++ r2.2)

/-- Key-by-key processing of objects: a sensitive key with a non-empty
string value short-circuits (replacement in `redact` mode, a key-based
detection in `strict` mode); every other value is recursed into. -/
def processObj (o : RedactOptions) :
    List (Chars × Json) → Chars → List (Chars × Json) × List Chars
  | [], _ => ([], [])
  | (key, val) :: rest, keyPath =>
      let currentPath := if keyPath.isEmpty then key else keyPath ++ '.' :: key
      if isSensitiveKey key o.extraKeyPatterns && isNonemptyStr val then
        if o.mode = .strict then
          let r2 := processObj o rest keyPath
          ((key, val) :: r2.1, (currentPath ++ ": sensitive key name".data) :: r2.2)
        else
          let r2 := processObj o rest keyPath
          ((key, .str o.replacement) :: r2.1, r2.2)
      else
        let r1 := processValue o val currentPath
        let r2 := processObj o rest keyPath
        ((key, r1.1) :: r2.1, r1.2 ++ r2.2)

end

/-- Does an `Except` hold an error?  (`redactObject` throwing.) -/
def exceptIsError : Except ε α → Bool
  | .error _ => true
  | .ok _ => false

/-- `redactObject(obj, opts)`: the walk, then the final strict-mode
decision.  A thrown `RedactionError` is modelled as `Except.error`
carrying its `matches` payload. -/
def redactObject (j : Json) (o : RedactOptions) : Except (List Chars) Json :=
  let r := processValue o j []
  if o.mode = .strict && !r.2.isEmpty then .error r.2 else .ok r.1

/-- The default options of `redactObject` (`mode: "redact"`, no extra
patterns, replacement `[REDACTED]`). -/
def redactDefaults : RedactOptions := ⟨.redact, [], [], DEFAULT_REPLACEMENT⟩

/-- Options for `mode: "strict"` with all other defaults. -/
def strictDefaults : RedactOptions := ⟨.strict, [], [], DEFAULT_REPLACEMENT⟩

/-- `containsSecrets(obj, extraKeyPatterns, extraValuePatterns)`: runs
`redactObject` in strict mode and reports whether it threw. -/
def containsSecrets (j : Json) (extraKeyPatterns extraValuePatterns : List Rx) :
    Bool :=
  exceptIsError (redactObject j
    ⟨.strict, extraKeyPatterns, extraValuePatterns, DEFAULT_REPLACEMENT⟩)

/-- `redactObject` under default (redact-mode) options; redact mode never
throws, so the `Except` is collapsed. -/
def scanRedact (j : Json) : Json := ((redactObject j redactDefaults).toOption).getD j

/-! ## Substring and tree predicates used to state the claims -/

/-- Boolean prefix test on character lists. -/
def isPrefixB : Chars → Chars → Bool
  | [], _ => true
  | _ :: _, [] => false
  | a :: as, b :: bs => a = b && isPrefixB as bs

/-- Boolean contiguous-substring test. -/
def containsSub (needle hay : Chars) : Bool :=
  isPrefixB needle hay ||
    (match hay with
     | [] => false
     | _ :: t => containsSub needle t)

mutual

/-- Some string in the tree matches a built-in value-content pattern. -/
def treeHasMatch : Json → Bool
  | .str s => !(findSensitivePatterns s []).isEmpty
  | .arr items => treeHasMatchArr items
  | .obj entries => treeHasMatchObj entries
  | .null => false
  | .bool _ => false
  | .num _ => false

/-- Array version of `treeHasMatch`. -/
def treeHasMatchArr : List Json → Bool
  | [] => false
  | j :: rest => treeHasMatch j || treeHasMatchArr rest

/-- Object version of `treeHasMatch`. -/
def treeHasMatchObj : List (Chars × Json) → Bool
  | [] => false
  | (_, v) :: rest => treeHasMatch v || treeHasMatchObj rest

end

mutual

/-- Some string in the tree contains the replacement literal `[REDACTED]`
as a substring. -/
def treeHasLit : Json → Bool
  | .str s => containsSub DEFAULT_REPLACEMENT s
  | .arr items => treeHasLitArr items
  | .obj entries => treeHasLitObj entries
  | .null => false
  | .bool _ => false
  | .num _ => false

/-- Array version of `treeHasLit`. -/
def treeHasLitArr : List Json → Bool
  | [] => false
  | j :: rest => treeHasLit j || treeHasLitArr rest

/-- Object version of `treeHasLit`. -/
def treeHasLitObj : List (Chars × Json) → Bool
  | [] => false
  | (_, v) :: rest => treeHasLit v || treeHasLitObj rest

end

/-! ## Lemmas about substring containment and global replacement -/

theorem isPrefixB_append (n x : Chars) : isPrefixB n (n ++ x) = true := by
  induction n with
  | nil => rfl
  | cons c cs ih => simp [isPrefixB, ih]

theorem containsSub_of_prefix {n h : Chars} (hp : isPrefixB n h = true) :
    containsSub n h = true := by
  unfold containsSub
  simp [hp]

theorem containsSub_append_left (n x : Chars) : containsSub n (n ++ x) = true :=
  containsSub_of_prefix (isPrefixB_append n x)

theorem containsSub_refl (n : Chars) : containsSub n n = true := by
  simpa using containsSub_append_left n []

theorem containsSub_cons {n t : Chars} (c : Char)
    (h : containsSub n t = true) : containsSub n (c :: t) = true := by
  unfold containsSub
  simp [h]

/-- A single global-replacement pass either leaves the string unchanged or
its result contains the replacement text. -/
theorem replaceFrom_eq_or_contains (r : Rx) (repl : Chars) :
    ∀ (fuel : Nat) (prev : Option Char) (s : Chars),
      replaceFrom r repl fuel prev s = s ∨
        containsSub repl (replaceFrom r repl fuel prev s) = true := by
  intro fuel
  induction fuel with
  | zero => intro prev s; left; rfl
  | succ fuel ih =>
    intro prev s
    rw [replaceFrom.eq_def]
    cases hm : matchEnd r prev s with
    | some pr =>
      obtain ⟨p2, rest⟩ := pr
      simp only
      split
      · cases s with
        | nil => right; simpa using containsSub_refl repl
        | cons c cs => right; exact containsSub_append_left repl _
      · right; exact containsSub_append_left repl _
    | none =>
      cases s with
      | nil => left; rfl
      | cons c cs =>
        rcases ih (some c) cs with h | h
        · left; simp [h]
        · right; exact containsSub_cons c h

theorem matchedHere_eq_none {r : Rx} {prev : Option Char} {s : Chars} :
    matchedHere r prev s = none ↔ matchEnd r prev s = none := by
  unfold matchedHere
  cases matchEnd r prev s <;> simp

theorem firstMatchFrom_cons_none {r : Rx} {c : Char} {cs : Chars}
    {prev : Option Char} (h : firstMatchFrom r prev (c :: cs) = none) :
    matchEnd r prev (c :: cs) = none ∧ firstMatchFrom r (some c) cs = none := by
  rw [firstMatchFrom] at h
  cases hm : matchedHere r prev (c :: cs) with
  | some m => rw [hm] at h; simp [Option.orElse] at h
  | none =>
    rw [hm] at h
    simp [Option.orElse] at h
    exact ⟨matchedHere_eq_none.mp hm, h⟩

theorem firstMatchFrom_cons_isSome {r : Rx} {c : Char} {cs : Chars}
    {prev : Option Char} (h : (firstMatchFrom r prev (c :: cs)).isSome)
    (hm : matchEnd r prev (c :: cs) = none) :
    (firstMatchFrom r (some c) cs).isSome := by
  rw [firstMatchFrom] at h
  have hmh : matchedHere r prev (c :: cs) = none := matchedHere_eq_none.mpr hm
  rw [hmh] at h
  simpa [Option.orElse] using h

/-- With no match anywhere in the input, a global replacement pass is the
identity. -/
theorem replaceFrom_id_of_no_match (r : Rx) (repl : Chars) :
    ∀ (fuel : Nat) (prev : Option Char) (s : Chars),
      firstMatchFrom r prev s = none →
      replaceFrom r repl fuel prev s = s := by
  intro fuel
  induction fuel with
  | zero => intro prev s _; rfl
  | succ fuel ih =>
    intro prev s hnm
    rw [replaceFrom.eq_def]
    cases s with
    | nil =>
      rw [firstMatchFrom] at hnm
      have : matchEnd r prev [] = none := matchedHere_eq_none.mp hnm
      rw [this]
    | cons c cs =>
      obtain ⟨hm, hrec⟩ := firstMatchFrom_cons_none hnm
      rw [hm]
      simpa using ih (some c) cs hrec

/-- With a match somewhere in the input and enough fuel, the result of a
global replacement pass contains the replacement text. -/
theorem replaceFrom_contains_of_match (r : Rx) (repl : Chars) :
    ∀ (fuel : Nat) (prev : Option Char) (s : Chars),
      s.length < fuel →
      (firstMatchFrom r prev s).isSome →
      containsSub repl (replaceFrom r repl fuel prev s) = true := by
  intro fuel
  induction fuel with
  | zero => intro prev s hf; exact absurd hf (by omega)
  | succ fuel ih =>
    intro prev s hf hsm
    rw [replaceFrom.eq_def]
    cases hm : matchEnd r prev s with
    | some pr =>
      obtain ⟨p2, rest⟩ := pr
      simp only
      split
      · cases s with
        | nil => simpa using containsSub_refl repl
        | cons c cs => exact containsSub_append_left repl _
      · exact containsSub_append_left repl _
    | none =>
      cases s with
      | nil =>
        rw [firstMatchFrom] at hsm
        rw [matchedHere_eq_none.mpr hm] at hsm
        simp at hsm
      | cons c cs =>
        have hrec := firstMatchFrom_cons_isSome hsm hm
        have hlen : cs.length < fuel := by
          simp only [List.length_cons] at hf; omega
        exact containsSub_cons c (ih (some c) cs hlen hrec)

/-- A global replacement pass preserves containment of the replacement
text. -/
theorem replaceFrom_preserves_contains (r : Rx) (repl : Chars)
    (fuel : Nat) (prev : Option Char) (s : Chars)
    (h : containsSub repl s = true) :
    containsSub repl (replaceFrom r repl fuel prev s) = true := by
  rcases replaceFrom_eq_or_contains r repl fuel prev s with he | hc
  · rw [he]; exact h
  · exact hc

/-- Folding global replacements preserves containment of the replacement
text. -/
theorem foldl_preserves_contains (repl : Chars) (ps : List Rx) :
    ∀ s, containsSub repl s = true →
      containsSub repl
        (ps.foldl (fun acc p => replaceAll p repl acc) s) = true := by
  induction ps with
  | nil => intro s h; simpa using h
  | cons p rest ih =>
    intro s h
    simp only [List.foldl_cons]
    exact ih _ (replaceFrom_preserves_contains p repl _ none s h)

/-- The `redactValue` fold: if some pattern in the list matches the
string, the folded result contains the replacement text. -/
theorem foldl_replace_contains (repl : Chars) :
    ∀ (ps : List Rx) (s : Chars),
      (∃ p ∈ ps, (firstMatchFrom p none s).isSome) →
      containsSub repl
        (ps.foldl (fun acc p => replaceAll p repl acc) s) = true := by
  intro ps
  induction ps with
  | nil => intro s h; simp at h
  | cons p rest ih =>
    intro s h
    simp only [List.foldl_cons]
    by_cases hp : (firstMatchFrom p none s).isSome
    · have h1 : containsSub repl (replaceAll p repl s) = true :=
        replaceFrom_contains_of_match p repl (s.length + 1) none s
          (Nat.lt_succ_self _) hp
      exact foldl_preserves_contains repl rest _ h1
    · rcases h with ⟨q, hq, hqm⟩
      rcases List.mem_cons.mp hq with rfl | hq2
      · exact absurd hqm hp
      · have hid : replaceAll p repl s = s :=
          replaceFrom_id_of_no_match p repl _ none s
            (Option.not_isSome_iff_eq_none.mp hp)
        rw [hid]
        exact ih s ⟨q, hq2, hqm⟩

/-- If some built-in pattern matches `s`, the fully redacted string
contains the replacement literal. -/
theorem redactValue_contains_of_match (s : Chars)
    (h : findSensitivePatterns s [] ≠ []) :
    containsSub DEFAULT_REPLACEMENT (redactValue s DEFAULT_REPLACEMENT []) = true := by
  unfold redactValue
  apply foldl_replace_contains
  unfold findSensitivePatterns at h
  by_contra hno
  push_neg at hno
  apply h
  rw [List.filterMap_eq_nil]
  intro p hp
  have := hno p hp
  simp only [Option.not_isSome_iff_eq_none] at this
  simp [this]

mutual

/-- In strict mode the walk returns the input value unchanged. -/
theorem processValue_strict_fst (o : RedactOptions)
    (h : o.mode = RedactMode.strict) (j : Json) (path : Chars) :
    (processValue o j path).1 = j := by
  cases j with
  | null => rfl
  | bool b => rfl
  | num n => rfl
  | str s =>
    rw [processValue]
    split
    · rfl
    · rfl
  | arr items =>
    rw [processValue]
    simpa using processArr_strict_fst o h items path 0
  | obj entries =>
    rw [processValue]
    simpa using processObj_strict_fst o h entries path
termination_by sizeOf j

/-- Array version of `processValue_strict_fst`. -/
theorem processArr_strict_fst (o : RedactOptions)
    (h : o.mode = RedactMode.strict) (items : List Json) (path : Chars)
    (i : Nat) : (processArr o items path i).1 = items := by
  cases items with
  | nil => rfl
  | cons j rest =>
    rw [processArr]
    simp only [List.cons.injEq]
    exact ⟨processValue_strict_fst o h j _, processArr_strict_fst o h rest path (i + 1)⟩
termination_by sizeOf items

/-- Object version of `processValue_strict_fst`. -/
theorem processObj_strict_fst (o : RedactOptions)
    (h : o.mode = RedactMode.strict) (entries : List (Chars × Json))
    (path : Chars) : (processObj o entries path).1 = entries := by
  cases entries with
  | nil => rfl
  | cons kv rest =>
    obtain ⟨key, val⟩ := kv
    rw [processObj]
    by_cases hk : (isSensitiveKey key o.extraKeyPatterns && isNonemptyStr val) = true
    · rw [if_pos hk, if_pos h]
      show (key, val) :: (processObj o rest path).1 = (key, val) :: rest
      rw [processObj_strict_fst o h rest path]
    · rw [if_neg hk]
      show (key, (processValue o val _).1) :: (processObj o rest path).1 =
        (key, val) :: rest
      rw [processValue_strict_fst o h val _, processObj_strict_fst o h rest path]
termination_by sizeOf entries

end

mutual

/-- In redact mode the walk records no detections. -/
theorem processValue_redact_snd (o : RedactOptions)
    (h : o.mode = RedactMode.redact) (j : Json) (path : Chars) :
    (processValue o j path).2 = [] := by
  cases j with
  | null => rfl
  | bool b => rfl
  | num n => rfl
  | str s =>
    rw [processValue]
    split
    · rfl
    · split
      · rename_i hc
        rw [h] at hc
        exact RedactMode.noConfusion hc
      · rfl
  | arr items =>
    rw [processValue]
    simpa using processArr_redact_snd o h items path 0
  | obj entries =>
    rw [processValue]
    simpa using processObj_redact_snd o h entries path
termination_by sizeOf j

/-- Array version of `processValue_redact_snd`. -/
theorem processArr_redact_snd (o : RedactOptions)
    (h : o.mode = RedactMode.redact) (items : List Json) (path : Chars)
    (i : Nat) : (processArr o items path i).2 = [] := by
  cases items with
  | nil => rfl
  | cons j rest =>
    rw [processArr]
    simp only [List.append_eq_nil]
    exact ⟨processValue_redact_snd o h j _, processArr_redact_snd o h rest path (i + 1)⟩
termination_by sizeOf items

/-- Object version of `processValue_redact_snd`. -/
theorem processObj_redact_snd (o : RedactOptions)
    (h : o.mode = RedactMode.redact) (entries : List (Chars × Json))
    (path : Chars) : (processObj o entries path).2 = [] := by
  cases entries with
  | nil => rfl
  | cons kv rest =>
    obtain ⟨key, val⟩ := kv
    rw [processObj]
    split
    · split
      · rename_i hc
        rw [h] at hc
        exact RedactMode.noConfusion hc
      · simpa using processObj_redact_snd o h rest path
    · simp only [List.append_eq_nil]
      exact ⟨processValue_redact_snd o h val _, processObj_redact_snd o h rest path⟩
termination_by sizeOf entries

end

/-- Redact mode never throws: `redactObject` with redact-mode options
returns the processed tree. -/
theorem redactObject_redact_ok (j : Json) :
    redactObject j redactDefaults = .ok (processValue redactDefaults j []).1 := by
  simp [redactObject, processValue_redact_snd redactDefaults rfl j []]

/-- `scanRedact` is the processed tree of the redact-mode walk. -/
theorem scanRedact_eq (j : Json) :
    scanRedact j = (processValue redactDefaults j []).1 := by
  unfold scanRedact
  rw [redactObject_redact_ok]
  rfl

mutual

/-- In redact mode with default options, every value containing a
pattern-matching string is rewritten so that some string contains the
replacement literal. -/
theorem redactLit_value : ∀ (j : Json) (path : Chars),
    treeHasMatch j = true →
    treeHasLit (processValue redactDefaults j path).1 = true
  | .null, _, h => by simp [treeHasMatch] at h
  | .bool _, _, h => by simp [treeHasMatch] at h
  | .num _, _, h => by simp [treeHasMatch] at h
  | .str s, path, h => by
    rw [treeHasMatch] at h
    rw [processValue]
    have hne : ¬ (findSensitivePatterns s redactDefaults.extraValuePatterns).isEmpty = true := by
      simpa using h
    rw [if_neg hne]
    rw [if_neg (show ¬ redactDefaults.mode = RedactMode.strict from fun hc =>
      RedactMode.noConfusion hc)]
    rw [treeHasLit]
    have hne2 : findSensitivePatterns s [] ≠ [] := by
      intro hnil
      simp [hnil] at h
    exact redactValue_contains_of_match s hne2
  | .arr items, path, h => by
    rw [treeHasMatch] at h
    rw [processValue]
    rw [treeHasLit]
    exact redactLit_arr items path 0 h
  | .obj entries, path, h => by
    rw [treeHasMatch] at h
    rw [processValue]
    rw [treeHasLit]
    exact redactLit_obj entries path h

/-- Array version of `redactLit_value`. -/
theorem redactLit_arr : ∀ (items : List Json) (path : Chars) (i : Nat),
    treeHasMatchArr items = true →
    treeHasLitArr (processArr redactDefaults items path i).1 = true
  | [], _, _, h => by simp [treeHasMatchArr] at h
  | j :: rest, path, i, h => by
    rw [treeHasMatchArr] at h
    rw [processArr]
    rw [treeHasLitArr]
    rw [Bool.or_eq_true] at h ⊢
    rcases h with hj | hr
    · exact Or.inl (redactLit_value j _ hj)
    · exact Or.inr (redactLit_arr rest path (i + 1) hr)

/-- Object version of `redactLit_value`. -/
theorem redactLit_obj : ∀ (entries : List (Chars × Json)) (path : Chars),
    treeHasMatchObj entries = true →
    treeHasLitObj (processObj redactDefaults entries path).1 = true
  | [], _, h => by simp [treeHasMatchObj] at h
  | (key, val) :: rest, path, h => by
    rw [treeHasMatchObj] at h
    rw [processObj]
    by_cases hk :
        (isSensitiveKey key redactDefaults.extraKeyPatterns && isNonemptyStr val) = true
    · rw [if_pos hk]
      rw [if_neg (show ¬ redactDefaults.mode = RedactMode.strict from fun hc =>
        RedactMode.noConfusion hc)]
      rw [treeHasLitObj]
      rw [Bool.or_eq_true]
      left
      rw [treeHasLit]
      exact containsSub_refl DEFAULT_REPLACEMENT
    · rw [if_neg hk]
      rw [treeHasLitObj]
      rw [Bool.or_eq_true] at h ⊢
      rcases h with hv | hr
      · exact Or.inl (redactLit_value val _ hv)
      · exact Or.inr (redactLit_obj rest path hr)

end

/-! ## Claim theorems: redaction engine -/

/-- The concrete counterexample tree: its string matches the built-in
inline `key=value` pattern, and after redaction the inserted uppercase
letters of `[REDACTED]` enable the generic mixed-case 32+-character
pattern (whose lookaheads scan the whole remainder of the line) on the
32-character alphanumeric prefix, which no built-in pattern matched
before redaction. -/
def c1Input : Json := .str "abcdefghij0123456789abcdefghij12 token=abcd".data

/-- C1, counterexample: the input tree contains a string matching a
built-in value-content pattern, yet the redacted result again contains a
string matching a built-in value-content pattern — refuting the claim
that no string of the result matches any built-in pattern. -/
theorem c1_counterexample :
    treeHasMatch c1Input = true ∧ treeHasMatch (scanRedact c1Input) = true :=
  ⟨rfl, rfl⟩

/-- C1 (amended): for every JSON-shaped tree containing a string that
matches a built-in value-content pattern, redact-mode `redactObject` with
the default replacement returns a tree in which the literal `[REDACTED]`
occurs in at least one string (the other half of the original claim — that
no string of the result matches any built-in pattern — is refuted by
`c1_counterexample`). -/
theorem c1_redact_inserts_literal (t : Json) (h : treeHasMatch t = true) :
    treeHasLit (scanRedact t) = true := by
  rw [scanRedact_eq]
  exact redactLit_value t [] h

/-- C1, witness: the amended theorem applied at the concrete input. -/
theorem c1_redact_inserts_literal_witness :
    treeHasMatch c1Input = true ∧ treeHasLit (scanRedact c1Input) = true :=
  ⟨rfl, c1_redact_inserts_literal c1Input rfl⟩

/-- C2: strict-mode `redactObject` (with default extra patterns) throws
exactly when `containsSecrets` is true — the predicate is defined by that
very strict run — and whenever it does not throw it returns a tree equal
to the input (strict mode never rewrites values). -/
theorem c2_strict_throw_iff_containsSecrets (t : Json) :
    (exceptIsError (redactObject t strictDefaults) = containsSecrets t [] []) ∧
    ((redactObject t strictDefaults).toOption.getD t = t) := by
  refine ⟨rfl, ?_⟩
  unfold redactObject
  by_cases hc :
      (strictDefaults.mode = RedactMode.strict && !(processValue strictDefaults t []).2.isEmpty) = true
  · rw [if_pos hc]; rfl
  · rw [if_neg hc]
    show (processValue strictDefaults t []).1 = t
    exact processValue_strict_fst strictDefaults rfl t []

/-- C5: an object whose `password` key holds any non-empty string value
redacts (default options) to the object with that value replaced by the
literal `[REDACTED]`, bypassing value-pattern scanning. -/
theorem c5_password_key_always_redacted (v : Chars) (hv : v ≠ []) :
    scanRedact (.obj [("password".data, .str v)]) =
      .obj [("password".data, .str DEFAULT_REPLACEMENT)] := by
  rw [scanRedact_eq]
  rw [processValue]
  rw [processObj]
  have hk : (isSensitiveKey "password".data redactDefaults.extraKeyPatterns &&
      isNonemptyStr (.str v)) = true := by
    rw [Bool.and_eq_true]
    refine ⟨rfl, ?_⟩
    rw [isNonemptyStr]
    simpa using hv
  rw [if_pos hk]
  rw [if_neg (show ¬ redactDefaults.mode = RedactMode.strict from fun hc =>
    RedactMode.noConfusion hc)]
  rfl

/-- C5, witness: the theorem applied at the concrete value `hunter2`. -/
theorem c5_password_key_always_redacted_witness :
    "hunter2".data ≠ ([] : Chars) ∧
    scanRedact (.obj [("password".data, .str "hunter2".data)]) =
      .obj [("password".data, .str DEFAULT_REPLACEMENT)] :=
  ⟨by decide, c5_password_key_always_redacted "hunter2".data (by decide)⟩

/-- C6, counterexample: redact-mode redaction is not idempotent — on the
concrete input the second pass redacts the 32-character alphanumeric
prefix (enabled by the uppercase letters of the inserted literal), so the
two results differ. -/
theorem c6_counterexample :
    scanRedact (scanRedact c1Input) ≠ scanRedact c1Input := by
  have h2 : scanRedact (scanRedact c1Input) =
      .str "[REDACTED] [REDACTED]".data := rfl
  have h1 : scanRedact c1Input =
      .str "abcdefghij0123456789abcdefghij12 [REDACTED]".data := rfl
  rw [h2, h1]
  intro he
  injection he with hs
  exact absurd hs (by decide)

/-- C6 (amended): the replacement literal `[REDACTED]` itself matches no
built-in value-content pattern, and a tree consisting of that literal is a
fixed point of redaction; full idempotence, however, fails
(`c6_counterexample`). -/
theorem c6_replacement_literal_is_fixed_point :
    findSensitivePatterns DEFAULT_REPLACEMENT [] = [] ∧
    scanRedact (.str DEFAULT_REPLACEMENT) = .str DEFAULT_REPLACEMENT :=
  ⟨rfl, rfl⟩

/-- The concrete input for the C8 counterexample: the inline pattern
match `pwd=abcd` is 8 characters long, under the truncation threshold. -/
def c8Input : Json := .obj [("x".data, .str "pwd=abcd".data)]

/-- C8, counterexample: the full matched text `pwd=abcd` (the complete
leftmost match of the inline key=value pattern) is retained verbatim in
the strict-mode error payload, because matches of 20 characters or fewer
are not truncated. -/
theorem c8_counterexample :
    redactObject c8Input strictDefaults = .error ["x: pwd=abcd".data] ∧
    firstMatchFrom rxInlineKv none "pwd=abcd".data = some "pwd=abcd".data ∧
    containsSub "pwd=abcd".data "x: pwd=abcd".data = true :=
  ⟨rfl, rfl, rfl⟩

/-- C8 (amended): every preview produced by `findSensitivePatterns` is at
most 23 characters long — matches longer than 20 characters are cut to
their first 20 characters plus an ellipsis, while shorter matches appear
in full. -/
theorem c8_previews_truncated (s : Chars) (extra : List Rx) (pre : Chars)
    (hpre : pre ∈ findSensitivePatterns s extra) :
    pre.length ≤ 23 := by
  unfold findSensitivePatterns at hpre
  rcases List.mem_filterMap.mp hpre with ⟨p, _, hmap⟩
  rcases Option.map_eq_some'.mp hmap with ⟨m, _, hm2⟩
  subst hm2
  unfold previewOfMatch
  split
  · simp only [List.length_append, List.length_take, List.length_cons,
      List.length_nil]
    omega
  · omega

/-- C8, witness: the amended bound applied at the concrete input. -/
theorem c8_previews_truncated_witness :
    "pwd=abcd".data ∈ findSensitivePatterns "pwd=abcd".data [] ∧
    ("pwd=abcd".data).length ≤ 23 :=
  ⟨by decide, c8_previews_truncated "pwd=abcd".data [] "pwd=abcd".data (by decide)⟩

/-! ## ID generation (`makeId` in ledger.ts) -/

/-- The components of a UTC date, as rendered by `Date.toISOString`. -/
structure DateParts where
  year : Nat
  month : Nat
  day : Nat
  hour : Nat
  minute : Nat
  second : Nat
  ms : Nat
deriving DecidableEq, Repr

/-- Two-digit zero-padded rendering (the field widths of
`Date.toISOString`). -/
def pad2 (n : Nat) : Chars := [digitChar (n / 10), digitChar (n % 10)]

/-- Three-digit zero-padded rendering (milliseconds). -/
def pad3 (n : Nat) : Chars :=
  [digitChar (n / 100), digitChar (n / 10 % 10), digitChar (n % 10)]

/-- Four-digit zero-padded rendering (years 1000-9999). -/
def pad4 (n : Nat) : Chars := pad2 (n / 100) ++ pad2 (n % 100)

/-- `Date.prototype.toISOString`: `YYYY-MM-DDTHH:mm:ss.sssZ`. -/
def isoChars (d : DateParts) : Chars :=
  pad4 d.year ++ '-' :: pad2 d.month ++ '-' :: pad2 d.day ++
    'T' :: pad2 d.hour ++ ':' :: pad2 d.minute ++ ':' :: pad2 d.second ++
    '.' :: pad3 d.ms ++ ['Z']

/-- The first `replace` of `makeId`: the global replacement of the
one-character class matching a dash or colon by the empty string, which
deletes every occurrence. -/
def stripDashColon (s : Chars) : Chars :=
  s.filter (fun c => !(c = '-' || c = ':'))

/-- The second `replace` of `makeId` (non-global): the leftmost match of
dot, one-or-more non-line-terminator characters, then `Z` at the end of
the input, replaced by `Z`. -/
def stripFracToZ : Chars → Chars
  | [] => []
  | c :: rest =>
    if c = '.' ∧ rest.dropLast ≠ [] ∧ rest.getLast? = some 'Z' ∧
        rest.dropLast.all isDotChar then
      ['Z']
    else c :: stripFracToZ rest

/-- The compact timestamp computed by `makeId`:
`toISOString` stripped of dashes and colons, with the fractional-seconds
suffix collapsed to `Z`. -/
def isoCompact (d : DateParts) : Chars := stripFracToZ (stripDashColon (isoChars d))

/-- Lowercase hexadecimal digit character (as produced by
`Number.prototype.toString(16)`). -/
def hexDigitChar (n : Nat) : Char :=
  match n with
  | 0 => '0' | 1 => '1' | 2 => '2' | 3 => '3' | 4 => '4'
  | 5 => '5' | 6 => '6' | 7 => '7' | 8 => '8' | 9 => '9'
  | 10 => 'a' | 11 => 'b' | 12 => 'c' | 13 => 'd' | 14 => 'e' | _ => 'f'

/-- The hexadecimal expansion of the fraction `k / 2 ^ 53`, without
trailing zeros (the expansion of a 53-bit binary fraction is exact and
terminates within 14 hex digits, so any fuel of at least 14 computes it
fully). -/
def hexFracDigits (fuel k : Nat) : Chars :=
  match fuel with
  | 0 => []
  | fuel + 1 =>
    if k = 0 then []
    else hexDigitChar (k * 16 / 2 ^ 53) :: hexFracDigits fuel (k * 16 % 2 ^ 53)

/-- `Math.random().toString(16)` where the drawn double is `k / 2 ^ 53`
(`Math.random` returns 53-bit dyadic rationals in `[0, 1)`): `"0"` for
zero, otherwise `"0."` followed by the exact hex expansion of the
fraction without trailing zeros. -/
def randomToString16 (k : Nat) : Chars :=
  if k = 0 then ['0'] else '0' :: '.' :: hexFracDigits 56 k

/-- The random suffix of `makeId`: `toString(16).slice(2, 6)`. -/
def idSuffix (k : Nat) : Chars := ((randomToString16 k).drop 2).take 4

/-- `makeId(now)` with the random draw made explicit: the compact UTC
timestamp, a dash, and the random suffix. -/
def makeId (d : DateParts) (k : Nat) : Chars :=
  isoCompact d ++ '-' :: idSuffix k

/-- In-range components of a calendar date (as produced by `Date` for
years 1000-9999). -/
def validDate (d : DateParts) : Prop :=
  1000 ≤ d.year ∧ d.year ≤ 9999 ∧ 1 ≤ d.month ∧ d.month ≤ 12 ∧
  1 ≤ d.day ∧ d.day ≤ 31 ∧ d.hour ≤ 23 ∧ d.minute ≤ 59 ∧
  d.second ≤ 59 ∧ d.ms ≤ 999

/-- Wall-clock order at second granularity (milliseconds disregarded). -/
def secondLt (a b : DateParts) : Prop :=
  a.year < b.year ∨ (a.year = b.year ∧
    (a.month < b.month ∨ (a.month = b.month ∧
      (a.day < b.day ∨ (a.day = b.day ∧
        (a.hour < b.hour ∨ (a.hour = b.hour ∧
          (a.minute < b.minute ∨ (a.minute = b.minute ∧
            a.second < b.second)))))))))

/-- Strict lexicographic comparison of character lists: the UTF-16
code-unit comparison of JS `<` on strings, restricted to the ASCII
alphabet of identifiers. -/
def chLexLt : Chars → Chars → Bool
  | [], [] => false
  | [], _ :: _ => true
  | _ :: _, [] => false
  | a :: as, b :: bs => if a < b then true else if a = b then chLexLt as bs else false

/-- Non-strict lexicographic comparison. -/
def chLexLe (a b : Chars) : Bool := chLexLt a b || a == b

/-- Lowercase hex digit test. -/
def isLowerHex (c : Char) : Bool :=
  isDigitChar c || (97 ≤ c.toNat && c.toNat ≤ 102)

/-- The compact timestamp, written out: `YYYYMMDDTHHmmssZ`. -/
def compactForm (d : DateParts) : Chars :=
  pad4 d.year ++ (pad2 d.month ++ (pad2 d.day ++
    'T' :: (pad2 d.hour ++ (pad2 d.minute ++ (pad2 d.second ++ ['Z'])))))

theorem digitChar_isDigit (n : Nat) : isDigitChar (digitChar n) = true := by
  unfold digitChar
  split <;> rfl

theorem digitChar_ne_dot (n : Nat) : digitChar n ≠ '.' := by
  unfold digitChar
  split <;> decide

theorem digitChar_keep (n : Nat) :
    (!(digitChar n == '-' || digitChar n == ':')) = true := by
  unfold digitChar
  split <;> rfl

theorem digitChar_isDot (n : Nat) : isDotChar (digitChar n) = true := by
  unfold digitChar
  split <;> rfl

theorem digitChar_lt_fin :
    ∀ a b : Fin 10, a.val < b.val → digitChar a.val < digitChar b.val := by
  decide

theorem digitChar_lt {a b : Nat} (h : a < b) (hb : b ≤ 9) :
    digitChar a < digitChar b := by
  have := digitChar_lt_fin ⟨a, by omega⟩ ⟨b, by omega⟩ h
  simpa using this

theorem chLexLt_append_of_lt :
    ∀ (a b x y : Chars), a.length = b.length → chLexLt a b = true →
      chLexLt (a ++ x) (b ++ y) = true
  | [], [], _, _, _, h => by simp [chLexLt] at h
  | [], _ :: _, _, _, hl, _ => by simp at hl
  | _ :: _, [], _, _, hl, _ => by simp at hl
  | a :: as, b :: bs, x, y, hl, h => by
    simp only [List.cons_append]
    rw [chLexLt] at h ⊢
    by_cases hab : a < b
    · rw [if_pos hab]
    · rw [if_neg hab] at h ⊢
      by_cases heq : a = b
      · rw [if_pos heq] at h ⊢
        have hl2 : as.length = bs.length := by simpa using hl
        exact chLexLt_append_of_lt as bs x y hl2 h
      · rw [if_neg heq] at h
        exact absurd h (by simp)

theorem chLexLt_append_same :
    ∀ (x a b : Chars), chLexLt (x ++ a) (x ++ b) = chLexLt a b
  | [], _, _ => rfl
  | c :: x, a, b => by
    simp only [List.cons_append]
    rw [chLexLt]
    rw [if_neg (lt_irrefl c), if_pos rfl]
    exact chLexLt_append_same x a b

theorem chLexLt_cons_same (c : Char) (a b : Chars) :
    chLexLt (c :: a) (c :: b) = chLexLt a b :=
  chLexLt_append_same [c] a b

theorem pad2_lt {n m : Nat} (h : n < m) (hm : m ≤ 99) :
    chLexLt (pad2 n) (pad2 m) = true := by
  unfold pad2
  rcases Nat.lt_or_ge (n / 10) (m / 10) with h1 | h1
  · rw [chLexLt]
    rw [if_pos (digitChar_lt h1 (by omega))]
  · have he : n / 10 = m / 10 := by omega
    have h2 : n % 10 < m % 10 := by omega
    rw [he, chLexLt]
    rw [if_neg (lt_irrefl _), if_pos rfl, chLexLt]
    rw [if_pos (digitChar_lt h2 (by omega))]

theorem pad2_length (n : Nat) : (pad2 n).length = 2 := rfl

theorem pad4_lt {n m : Nat} (h : n < m) (hm : m ≤ 9999) :
    chLexLt (pad4 n) (pad4 m) = true := by
  unfold pad4
  rcases Nat.lt_or_ge (n / 100) (m / 100) with h1 | h1
  · exact chLexLt_append_of_lt _ _ _ _ rfl (pad2_lt h1 (by omega))
  · have he : n / 100 = m / 100 := by omega
    have h2 : n % 100 < m % 100 := by omega
    rw [he, chLexLt_append_same]
    exact pad2_lt h2 (by omega)

theorem compactForm_lt {d1 d2 : DateParts} (h1 : validDate d1)
    (h2 : validDate d2) (hlt : secondLt d1 d2) :
    chLexLt (compactForm d1) (compactForm d2) = true := by
  obtain ⟨hy1l, hy1, hmo1l, hmo1, hd1l, hd1, hh1, hmi1, hs1, hms1⟩ := h1
  obtain ⟨hy2l, hy2, hmo2l, hmo2, hd2l, hd2, hh2, hmi2, hs2, hms2⟩ := h2
  unfold compactForm
  rcases hlt with hy | ⟨hy, hlt⟩
  · exact chLexLt_append_of_lt _ _ _ _ rfl (pad4_lt hy (by omega))
  rw [hy, chLexLt_append_same]
  rcases hlt with hmo | ⟨hmo, hlt⟩
  · exact chLexLt_append_of_lt _ _ _ _ rfl (pad2_lt hmo (by omega))
  rw [hmo, chLexLt_append_same]
  rcases hlt with hd | ⟨hd, hlt⟩
  · exact chLexLt_append_of_lt _ _ _ _ rfl (pad2_lt hd (by omega))
  rw [hd, chLexLt_append_same, chLexLt_cons_same]
  rcases hlt with hh | ⟨hh, hlt⟩
  · exact chLexLt_append_of_lt _ _ _ _ rfl (pad2_lt hh (by omega))
  rw [hh, chLexLt_append_same]
  rcases hlt with hmi | ⟨hmi, hs⟩
  · exact chLexLt_append_of_lt _ _ _ _ rfl (pad2_lt hmi (by omega))
  rw [hmi, chLexLt_append_same]
  exact chLexLt_append_of_lt _ _ _ _ rfl (pad2_lt hs (by omega))

theorem digitChar_ne_dash (n : Nat) : digitChar n ≠ '-' := by
  unfold digitChar
  split <;> decide

theorem digitChar_ne_colon (n : Nat) : digitChar n ≠ ':' := by
  unfold digitChar
  split <;> decide

theorem stripDashColon_pad2 (n : Nat) : stripDashColon (pad2 n) = pad2 n := by
  simp [stripDashColon, pad2, List.filter_cons, digitChar_ne_dash, digitChar_ne_colon]

theorem stripDashColon_pad3 (n : Nat) : stripDashColon (pad3 n) = pad3 n := by
  simp [stripDashColon, pad3, List.filter_cons, digitChar_ne_dash, digitChar_ne_colon]

theorem stripDashColon_pad4 (n : Nat) : stripDashColon (pad4 n) = pad4 n := by
  simp [stripDashColon, pad4, pad2, List.filter_cons, digitChar_ne_dash, digitChar_ne_colon]

theorem stripDashColon_isoChars (d : DateParts) :
    stripDashColon (isoChars d) =
      (pad4 d.year ++ (pad2 d.month ++ (pad2 d.day ++
        'T' :: (pad2 d.hour ++ (pad2 d.minute ++ pad2 d.second))))) ++
        '.' :: (pad3 d.ms ++ ['Z']) := by
  have hsep : ∀ (l : Chars), stripDashColon ('-' :: l) = stripDashColon l := by
    intro l; simp [stripDashColon, List.filter_cons]
  have hcol : ∀ (l : Chars), stripDashColon (':' :: l) = stripDashColon l := by
    intro l; simp [stripDashColon, List.filter_cons]
  have hT : ∀ (l : Chars), stripDashColon ('T' :: l) = 'T' :: stripDashColon l := by
    intro l; simp [stripDashColon, List.filter_cons]
  have hdot : ∀ (l : Chars), stripDashColon ('.' :: l) = '.' :: stripDashColon l := by
    intro l; simp [stripDashColon, List.filter_cons]
  have hZ : stripDashColon ['Z'] = ['Z'] := by
    simp [stripDashColon, List.filter_cons]
  have happ : ∀ (a b : Chars),
      stripDashColon (a ++ b) = stripDashColon a ++ stripDashColon b := by
    intro a b; simp [stripDashColon, List.filter_append]
  rw [isoChars]
  simp only [happ, hsep, hcol, hT, hdot, hZ, stripDashColon_pad2,
    stripDashColon_pad3, stripDashColon_pad4]
  simp [List.append_assoc]

theorem stripFracToZ_append (xs ys : Chars) (hx : ∀ c ∈ xs, c ≠ '.')
    (h1 : ys.dropLast ≠ []) (h2 : ys.getLast? = some 'Z')
    (h3 : ys.dropLast.all isDotChar = true) :
    stripFracToZ (xs ++ '.' :: ys) = xs ++ ['Z'] := by
  induction xs with
  | nil =>
    rw [List.nil_append, stripFracToZ]
    rw [if_pos ⟨rfl, h1, h2, h3⟩]
    rfl
  | cons x xs ih =>
    rw [List.cons_append, stripFracToZ]
    rw [if_neg]
    · rw [ih (fun c hc => hx c (List.mem_cons_of_mem x hc))]
      rfl
    · rintro ⟨hdot, -⟩
      exact hx x (List.mem_cons_self x xs) hdot

theorem mem_pad2_ne_dot {c : Char} {n : Nat} (h : c ∈ pad2 n) : c ≠ '.' := by
  simp only [pad2, List.mem_cons, List.not_mem_nil, or_false] at h
  rcases h with rfl | rfl
  · exact digitChar_ne_dot _
  · exact digitChar_ne_dot _

theorem mem_pad4_ne_dot {c : Char} {n : Nat} (h : c ∈ pad4 n) : c ≠ '.' := by
  rcases List.mem_append.mp h with h2 | h2
  · exact mem_pad2_ne_dot h2
  · exact mem_pad2_ne_dot h2

theorem isoCompact_eq (d : DateParts) : isoCompact d = compactForm d := by
  rw [isoCompact, stripDashColon_isoChars]
  rw [stripFracToZ_append]
  · rfl
  · intro c hc
    rcases List.mem_append.mp hc with h4 | hc
    · exact mem_pad4_ne_dot h4
    rcases List.mem_append.mp hc with h2 | hc
    · exact mem_pad2_ne_dot h2
    rcases List.mem_append.mp hc with h2 | hc
    · exact mem_pad2_ne_dot h2
    rcases List.mem_cons.mp hc with rfl | hc
    · decide
    rcases List.mem_append.mp hc with h2 | hc
    · exact mem_pad2_ne_dot h2
    rcases List.mem_append.mp hc with h2 | h2
    · exact mem_pad2_ne_dot h2
    · exact mem_pad2_ne_dot h2
  · rw [List.dropLast_concat]
    intro h
    have := congrArg List.length h
    simp [pad3] at this
  · rw [List.getLast?_concat]
  · rw [List.dropLast_concat]
    simp [pad3, digitChar_isDot]

theorem hexDigitChar_hex (n : Nat) : isLowerHex (hexDigitChar n) = true := by
  unfold hexDigitChar
  split <;> rfl

theorem hexFracDigits_hex :
    ∀ (fuel k : Nat), (hexFracDigits fuel k).all isLowerHex = true
  | 0, _ => rfl
  | fuel + 1, k => by
    rw [hexFracDigits]
    split
    · rfl
    · rw [List.all_cons, hexDigitChar_hex, hexFracDigits_hex fuel _]
      rfl

theorem idSuffix_hex (k : Nat) : (idSuffix k).all isLowerHex = true := by
  unfold idSuffix randomToString16
  split
  · rfl
  · rw [List.drop_succ_cons, List.drop_succ_cons, List.drop_zero]
    have hall := hexFracDigits_hex 56 k
    rw [List.all_eq_true] at hall ⊢
    intro c hc
    exact hall c (List.mem_of_mem_take hc)

theorem idSuffix_length (k : Nat) : (idSuffix k).length ≤ 4 := by
  unfold idSuffix
  simpa using List.length_take_le 4 _

theorem compactForm_length (d : DateParts) : (compactForm d).length = 16 := by
  simp [compactForm, pad4, pad2]

/-- The concrete date of the spec's own example identifier. -/
def c7Date : DateParts := ⟨2026, 1, 31, 3, 46, 56, 406⟩

/-- A later concrete date (one second later). -/
def c7DateLater : DateParts := ⟨2026, 1, 31, 3, 46, 57, 100⟩

/-- C7, counterexample: with the random draw `0.5` (a value `Math.random`
can return), `toString(16)` is `0.8` and `slice(2, 6)` is the single
character `8`, so the suffix has 1 hex digit, not 4: the id is
`20260131T034656Z-8`. -/
theorem c7_counterexample :
    makeId c7Date (2 ^ 52) = "20260131T034656Z-8".data ∧
    (idSuffix (2 ^ 52)).length = 1 :=
  ⟨rfl, rfl⟩

/-- C7 (amended): every identifier is the compact UTC timestamp, a dash,
and a random suffix of at most 4 lowercase hex digits (exactly 4 only
when the drawn fraction has at least 4 hex digits); and identifiers
generated at wall-clock times that differ at second granularity are
lexicographically ordered: the later id compares greater than or equal
(indeed strictly greater). -/
theorem c7_makeId_format_and_monotonicity :
    (∀ (d : DateParts) (k : Nat),
      makeId d k = compactForm d ++ '-' :: idSuffix k ∧
      (idSuffix k).length ≤ 4 ∧ (idSuffix k).all isLowerHex = true) ∧
    (∀ (d1 d2 : DateParts) (k1 k2 : Nat), validDate d1 → validDate d2 →
      secondLt d1 d2 → chLexLe (makeId d1 k1) (makeId d2 k2) = true) := by
  constructor
  · intro d k
    refine ⟨?_, idSuffix_length k, idSuffix_hex k⟩
    rw [makeId, isoCompact_eq]
  · intro d1 d2 k1 k2 h1 h2 hlt
    unfold chLexLe
    rw [Bool.or_eq_true]
    left
    rw [makeId, makeId, isoCompact_eq, isoCompact_eq]
    exact chLexLt_append_of_lt _ _ _ _
      (by rw [compactForm_length, compactForm_length])
      (compactForm_lt h1 h2 hlt)

/-- C7, witness: the theorem applied at two concrete dates one second
apart and two concrete random draws. -/
theorem c7_makeId_format_and_monotonicity_witness :
    validDate c7Date ∧ validDate c7DateLater ∧ secondLt c7Date c7DateLater ∧
    makeId c7Date 0 = compactForm c7Date ++ '-' :: idSuffix 0 ∧
    chLexLe (makeId c7Date 0) (makeId c7DateLater (2 ^ 52)) = true :=
  ⟨by unfold validDate; decide, by unfold validDate; decide,
   by unfold secondLt; decide,
   (c7_makeId_format_and_monotonicity.1 c7Date 0).1,
   c7_makeId_format_and_monotonicity.2 c7Date c7DateLater 0 (2 ^ 52)
     (by unfold validDate; decide) (by unfold validDate; decide)
     (by unfold secondLt; decide)⟩

/-! ## JSON text: `JSON.stringify` and `JSON.parse` -/

/-- Four lowercase hex digits (for `\u00XX` escapes). -/
def hexDigit4 (n : Nat) : Chars :=
  [hexDigitChar (n / 4096 % 16), hexDigitChar (n / 256 % 16),
   hexDigitChar (n / 16 % 16), hexDigitChar (n % 16)]

/-- The escaping of one character inside a JSON string literal, as
performed by `JSON.stringify`: quote, backslash and the named control
escapes as two-character sequences, all other control characters as
`\u00XX`, everything else verbatim. -/
def escapeChar (c : Char) : Chars :=
  if c = '"' then ['\\', '"']
  else if c = '\\' then ['\\', '\\']
  else if c = '\x08' then ['\\', 'b']
  else if c = '\t' then ['\\', 't']
  else if c = '\n' then ['\\', 'n']
  else if c = '\x0c' then ['\\', 'f']
  else if c = '\r' then ['\\', 'r']
  else if c.toNat < 32 then '\\' :: 'u' :: hexDigit4 c.toNat
  else [c]

/-- The escaped body of a JSON string literal. -/
def encodeStrBody (s : Chars) : Chars := s.flatMap escapeChar

/-- A JSON string literal. -/
def encodeStr (s : Chars) : Chars := '"' :: encodeStrBody s ++ ['"']

/-- Decimal digits of a natural number. -/
def natToChars (n : Nat) : Chars :=
  if n < 10 then [digitChar n] else natToChars (n / 10) ++ [digitChar (n % 10)]
decreasing_by omega

/-- Decimal rendering of an integer. -/
def intToChars (i : Int) : Chars :=
  if i < 0 then '-' :: natToChars (-i).toNat else natToChars i.toNat

mutual

/-- `JSON.stringify` (compact form, as used by `appendEntry`). -/
def printJson : Json → Chars
  | .null => "null".data
  | .bool true => "true".data
  | .bool false => "false".data
  | .num i => intToChars i
  | .str s => encodeStr s
  | .arr items => '[' :: printArrItems items ++ [']']
  | .obj entries => lbrace :: printObjItems entries ++ [rbrace]

/-- Comma-separated array elements. -/
def printArrItems : List Json → Chars
  | [] => []
  | [j] => printJson j
  | j :: rest => printJson j ++ ',' :: printArrItems rest

/-- Comma-separated `"key":value` object members. -/
def printObjItems : List (Chars × Json) → Chars
  | [] => []
  | [(k, v)] => encodeStr k ++ ':' :: printJson v
  | (k, v) :: rest => encodeStr k ++ ':' :: printJson v ++ ',' :: printObjItems rest

end

/-- JSON whitespace (as accepted between `JSON.parse` tokens): space,
tab, line feed, carriage return. -/
def isJsonWs (c : Char) : Bool := c = ' ' || c = '\t' || c = '\n' || c = '\r'

/-- Skip JSON whitespace. -/
def skipWs (s : Chars) : Chars := s.dropWhile isJsonWs

/-- The value of one hex digit (either case). -/
def hexVal (c : Char) : Option Nat :=
  if isDigitChar c then some (c.toNat - 48)
  else if 97 ≤ c.toNat ∧ c.toNat ≤ 102 then some (c.toNat - 87)
  else if 65 ≤ c.toNat ∧ c.toNat ≤ 70 then some (c.toNat - 55)
  else none

/-- Four hex digits of a `\uXXXX` escape. -/
def parseHex4 : Chars → Option (Nat × Chars)
  | a :: b :: c :: d :: rest =>
    (match hexVal a, hexVal b, hexVal c, hexVal d with
     | some va, some vb, some vc, some vd =>
         some (va * 4096 + vb * 256 + vc * 16 + vd, rest)
     | _, _, _, _ => none)
  | _ => none

/-- Strip an expected literal prefix (the tails of the `null`, `true`,
`false` keywords), returning the remainder on success. -/
def stripPre : Chars → Chars → Option Chars
  | [], s => some s
  | _ :: _, [] => none
  | p :: ps, c :: cs => if c = p then stripPre ps cs else none

/-- The body of a JSON string literal after the opening quote: content up
to the closing quote, decoding escapes.  `\uXXXX` escapes decode to the
scalar value, combining surrogate pairs; a lone surrogate is rejected
(JS strings could hold one, but no Lean scalar represents it — no claim
exercises this corner).  Raw control characters are rejected, as in
`JSON.parse`.  Each step consumes input, so any fuel exceeding the input
length computes the total function. -/
def parseStrBody (fuel : Nat) (s : Chars) : Option (Chars × Chars) :=
  match fuel with
  | 0 => none
  | fuel + 1 =>
    match s with
    | [] => none
    | c :: rest =>
      if c = '"' then some ([], rest)
      else if c = '\\' then
        match rest with
        | [] => none
        | e :: r2 =>
          if e = '"' then (parseStrBody fuel r2).map (fun pr => ('"' :: pr.1, pr.2))
          else if e = '\\' then (parseStrBody fuel r2).map (fun pr => ('\\' :: pr.1, pr.2))
          else if e = '/' then (parseStrBody fuel r2).map (fun pr => ('/' :: pr.1, pr.2))
          else if e = 'b' then (parseStrBody fuel r2).map (fun pr => ('\x08' :: pr.1, pr.2))
          else if e = 'f' then (parseStrBody fuel r2).map (fun pr => ('\x0c' :: pr.1, pr.2))
          else if e = 'n' then (parseStrBody fuel r2).map (fun pr => ('\n' :: pr.1, pr.2))
          else if e = 'r' then (parseStrBody fuel r2).map (fun pr => ('\r' :: pr.1, pr.2))
          else if e = 't' then (parseStrBody fuel r2).map (fun pr => ('\t' :: pr.1, pr.2))
          else if e = 'u' then
            match parseHex4 r2 with
            | none => none
            | some (h, r3) =>
              if 0xD800 ≤ h ∧ h < 0xDC00 then
                match r3 with
                | '\\' :: 'u' :: r4 =>
                  (match parseHex4 r4 with
                   | some (l, r5) =>
                     if 0xDC00 ≤ l ∧ l < 0xE000 then
                       (parseStrBody fuel r5).map (fun pr =>
                         (Char.ofNat (0x10000 + (h - 0xD800) * 0x400 + (l - 0xDC00)) :: pr.1, pr.2))
                     else none
                   | none => none)
                | _ => none
              else if 0xDC00 ≤ h ∧ h < 0xE000 then none
              else (parseStrBody fuel r3).map (fun pr => (Char.ofNat h :: pr.1, pr.2))
          else none
      else if c.toNat < 32 then none
      else (parseStrBody fuel rest).map (fun pr => (c :: pr.1, pr.2))

/-- A run of decimal digits with accumulator (the integer part of a JSON
number; fractional and exponent syntax is not modelled — the record
schema has no numeric field, and a line whose number the model rejects is
a line fault either way). -/
def parseDigits (acc : Nat) : Chars → Nat × Chars
  | [] => (acc, [])
  | c :: cs =>
    if isDigitChar c then parseDigits (acc * 10 + (c.toNat - 48)) cs
    else (acc, c :: cs)

mutual

/-- `JSON.parse` of one value, fuelled (any fuel exceeding the input
length suffices): skip whitespace, dispatch on the first token character,
and return the value and the remaining input. -/
def parseVal (fuel : Nat) (s : Chars) : Option (Json × Chars) :=
  match fuel with
  | 0 => none
  | fuel + 1 =>
    match skipWs s with
    | [] => none
    | c :: rest =>
      if c = 'n' then (stripPre "ull".data rest).map (fun r => (.null, r))
      else if c = 't' then (stripPre "rue".data rest).map (fun r => (.bool true, r))
      else if c = 'f' then (stripPre "alse".data rest).map (fun r => (.bool false, r))
      else if c = '"' then
        (parseStrBody (rest.length + 1) rest).map (fun pr => (.str pr.1, pr.2))
      else if c = '[' then
        match skipWs rest with
        | [] => none
        | c2 :: r2 =>
          if c2 = ']' then some (.arr [], r2)
          else (parseArrItems fuel (c2 :: r2)).map (fun pr => (.arr pr.1, pr.2))
      else if c = lbrace then
        match skipWs rest with
        | [] => none
        | c2 :: r2 =>
          if c2 = rbrace then some (.obj [], r2)
          else (parseObjItems fuel (c2 :: r2)).map (fun pr => (.obj pr.1, pr.2))
      else if c = '-' then
        match rest with
        | c2 :: _ =>
          if isDigitChar c2 then
            (fun pr => (Json.num (-(pr.1 : Int)), pr.2)) (parseDigits 0 rest)
          else none
        | [] => none
      else if isDigitChar c then
        (fun pr => (Json.num (pr.1 : Int), pr.2)) (parseDigits 0 (c :: rest))
      else none

/-- Array elements from the first element onward (the input starts at a
value). -/
def parseArrItems (fuel : Nat) (s : Chars) : Option (List Json × Chars) :=
  match fuel with
  | 0 => none
  | fuel + 1 =>
    match parseVal fuel s with
    | none => none
    | some (j, r) =>
      match skipWs r with
      | [] => none
      | c :: r3 =>
        if c = ',' then (parseArrItems fuel r3).map (fun pr => (j :: pr.1, pr.2))
        else if c = ']' then some ([j], r3)
        else none

/-- Object members from the first member onward (the input starts at a
key).  Members are collected in textual order; duplicate keys are kept
(lookups in the schema layer take the last occurrence, matching the
last-wins behaviour of `JSON.parse`). -/
def parseObjItems (fuel : Nat) (s : Chars) : Option (List (Chars × Json) × Chars) :=
  match fuel with
  | 0 => none
  | fuel + 1 =>
    match skipWs s with
    | [] => none
    | c0 :: r1 =>
      if c0 = '"' then
        match parseStrBody (r1.length + 1) r1 with
        | none => none
        | some (key, r2) =>
          (match skipWs r2 with
           | [] => none
           | c1 :: r3 =>
             if c1 = ':' then
               match parseVal fuel r3 with
               | none => none
               | some (v, r4) =>
                 (match skipWs r4 with
                  | [] => none
                  | c2 :: r5 =>
                    if c2 = ',' then
                      (parseObjItems fuel r5).map (fun pr => ((key, v) :: pr.1, pr.2))
                    else if c2 = rbrace then some ([(key, v)], r5)
                    else none)
             else none)
      else none

end

/-- `JSON.parse`: a single value with only whitespace around it; anything
else (including trailing input) is a parse failure, modelled as `none`. -/
def parseJson (s : Chars) : Option Json :=
  match parseVal (s.length + 1) s with
  | some (j, rest) => if (skipWs rest).isEmpty then some j else none
  | none => none

mutual

/-- Trees without numeric leaves (every record encoding is number-free;
the round-trip theorems are stated for these, leaving the number
grammar of the parser exercised only by fault cases). -/
def numFree : Json → Bool
  | .num _ => false
  | .arr items => numFreeArr items
  | .obj entries => numFreeObj entries
  | _ => true

/-- Array version of `numFree`. -/
def numFreeArr : List Json → Bool
  | [] => true
  | j :: rest => numFree j && numFreeArr rest

/-- Object version of `numFree`. -/
def numFreeObj : List (Chars × Json) → Bool
  | [] => true
  | (_, v) :: rest => numFree v && numFreeObj rest

end

mutual

/-- Fuel sufficient to parse a printed value. -/
def jsonFuel : Json → Nat
  | .arr items => 1 + arrFuel items
  | .obj entries => 1 + objFuel entries
  | _ => 1

/-- Fuel sufficient for the element loop. -/
def arrFuel : List Json → Nat
  | [] => 0
  | j :: rest => 1 + jsonFuel j + arrFuel rest

/-- Fuel sufficient for the member loop. -/
def objFuel : List (Chars × Json) → Nat
  | [] => 0
  | (_, v) :: rest => 1 + jsonFuel v + objFuel rest

end

theorem jsonFuel_pos (j : Json) : 1 ≤ jsonFuel j := by
  cases j <;> simp [jsonFuel]

theorem stripPre_self : ∀ (p t : Chars), stripPre p (p ++ t) = some t
  | [], _ => rfl
  | c :: cs, t => by
    rw [List.cons_append, stripPre]
    rw [if_pos rfl]
    exact stripPre_self cs t

theorem skipWs_cons_of {c : Char} (l : Chars) (h : isJsonWs c = false) :
    skipWs (c :: l) = c :: l := by
  simp [skipWs, List.dropWhile_cons, h]

/-- Head shape of a printed number-free value: a non-whitespace character
that is none of the closing delimiters or the comma. -/
theorem printJson_head (j : Json) (hnf : numFree j = true) :
    ∃ c t, printJson j = c :: t ∧ isJsonWs c = false ∧
      c ≠ ']' ∧ c ≠ rbrace ∧ c ≠ ',' := by
  cases j with
  | null => exact ⟨'n', _, rfl, by decide, by decide, by decide, by decide⟩
  | bool b =>
    cases b with
    | true => exact ⟨'t', _, rfl, by decide, by decide, by decide, by decide⟩
    | false => exact ⟨'f', _, rfl, by decide, by decide, by decide, by decide⟩
  | num n => simp [numFree] at hnf
  | str s => exact ⟨'"', _, rfl, by decide, by decide, by decide, by decide⟩
  | arr items => exact ⟨'[', _, rfl, by decide, by decide, by decide, by decide⟩
  | obj entries => exact ⟨lbrace, _, rfl, by decide, by decide, by decide, by decide⟩

theorem skipWs_print (j : Json) (x : Chars) (hnf : numFree j = true) :
    skipWs (printJson j ++ x) = printJson j ++ x := by
  obtain ⟨c, t, hpr, hws, -, -, -⟩ := printJson_head j hnf
  rw [hpr, List.cons_append, skipWs_cons_of _ hws]

theorem hexVal_hexDigitChar_fin :
    ∀ d : Fin 16, hexVal (hexDigitChar d.val) = some d.val := by
  decide

theorem hexVal_hexDigitChar {d : Nat} (h : d < 16) :
    hexVal (hexDigitChar d) = some d := by
  have := hexVal_hexDigitChar_fin ⟨d, h⟩
  simpa using this

theorem parseHex4_hexDigit4 (n : Nat) (tail : Chars) (h : n < 65536) :
    parseHex4 (hexDigit4 n ++ tail) = some (n, tail) := by
  show parseHex4 (hexDigitChar (n / 4096 % 16) :: hexDigitChar (n / 256 % 16) ::
    hexDigitChar (n / 16 % 16) :: hexDigitChar (n % 16) :: tail) = some (n, tail)
  rw [parseHex4]
  rw [hexVal_hexDigitChar (Nat.mod_lt _ (by omega)),
      hexVal_hexDigitChar (Nat.mod_lt _ (by omega)),
      hexVal_hexDigitChar (Nat.mod_lt _ (by omega)),
      hexVal_hexDigitChar (Nat.mod_lt _ (by omega))]
  simp only
  congr 2
  omega

theorem parseStrBody_round :
    ∀ (s rest : Chars) (fuel : Nat), (encodeStrBody s).length < fuel →
      parseStrBody fuel (encodeStrBody s ++ '"' :: rest) = some (s, rest) := by
  intro s
  induction s with
  | nil =>
    intro rest fuel hf
    cases fuel with
    | zero => exact absurd hf (by omega)
    | succ f => rfl
  | cons c cs ih =>
    intro rest fuel hf
    cases fuel with
    | zero => exact absurd hf (by omega)
    | succ f =>
      have hb : encodeStrBody (c :: cs) = escapeChar c ++ encodeStrBody cs := by
        simp [encodeStrBody]
      rw [hb] at hf
      simp only [List.length_append] at hf
      by_cases h1 : c = '"'
      · subst h1
        have hlt : (encodeStrBody cs).length < f := by
          simp [escapeChar] at hf; omega
        exact (by rw [ih rest f hlt]; rfl :
          ((parseStrBody f (encodeStrBody cs ++ '"' :: rest)).map
            (fun pr => ('"' :: pr.1, pr.2)) = some ('"' :: cs, rest)))
      by_cases h2 : c = '\\'
      · subst h2
        have hlt : (encodeStrBody cs).length < f := by
          simp [escapeChar] at hf; omega
        exact (by rw [ih rest f hlt]; rfl :
          ((parseStrBody f (encodeStrBody cs ++ '"' :: rest)).map
            (fun pr => ('\\' :: pr.1, pr.2)) = some ('\\' :: cs, rest)))
      by_cases h3 : c = '\x08'
      · subst h3
        have hlt : (encodeStrBody cs).length < f := by
          simp [escapeChar] at hf; omega
        exact (by rw [ih rest f hlt]; rfl :
          ((parseStrBody f (encodeStrBody cs ++ '"' :: rest)).map
            (fun pr => ('\x08' :: pr.1, pr.2)) = some ('\x08' :: cs, rest)))
      by_cases h4 : c = '\t'
      · subst h4
        have hlt : (encodeStrBody cs).length < f := by
          simp [escapeChar] at hf; omega
        exact (by rw [ih rest f hlt]; rfl :
          ((parseStrBody f (encodeStrBody cs ++ '"' :: rest)).map
            (fun pr => ('\t' :: pr.1, pr.2)) = some ('\t' :: cs, rest)))
      by_cases h5 : c = '\n'
      · subst h5
        have hlt : (encodeStrBody cs).length < f := by
          simp [escapeChar] at hf; omega
        exact (by rw [ih rest f hlt]; rfl :
          ((parseStrBody f (encodeStrBody cs ++ '"' :: rest)).map
            (fun pr => ('\n' :: pr.1, pr.2)) = some ('\n' :: cs, rest)))
      by_cases h6 : c = '\x0c'
      · subst h6
        have hlt : (encodeStrBody cs).length < f := by
          simp [escapeChar] at hf; omega
        exact (by rw [ih rest f hlt]; rfl :
          ((parseStrBody f (encodeStrBody cs ++ '"' :: rest)).map
            (fun pr => ('\x0c' :: pr.1, pr.2)) = some ('\x0c' :: cs, rest)))
      by_cases h7 : c = '\r'
      · subst h7
        have hlt : (encodeStrBody cs).length < f := by
          simp [escapeChar] at hf; omega
        exact (by rw [ih rest f hlt]; rfl :
          ((parseStrBody f (encodeStrBody cs ++ '"' :: rest)).map
            (fun pr => ('\r' :: pr.1, pr.2)) = some ('\r' :: cs, rest)))
      by_cases h8 : c.toNat < 32
      · have hesc : escapeChar c = '\\' :: 'u' :: hexDigit4 c.toNat := by
          rw [escapeChar, if_neg h1, if_neg h2, if_neg h3, if_neg h4, if_neg h5,
              if_neg h6, if_neg h7, if_pos h8]
        have hlt : (encodeStrBody cs).length < f := by
          rw [hesc] at hf
          simp [hexDigit4] at hf
          omega
        rw [hb, hesc]
        show parseStrBody (f + 1)
          ('\\' :: 'u' :: (hexDigit4 c.toNat ++ (encodeStrBody cs ++ '"' :: rest)))
            = some (c :: cs, rest)
        rw [parseStrBody]
        simp only [show (('\\' : Char) = '"') = False by simp,
          show (('\\' : Char) = '\\') = True by simp,
          show (('u' : Char) = '"') = False by simp,
          show (('u' : Char) = '\\') = False by simp,
          show (('u' : Char) = '/') = False by simp,
          show (('u' : Char) = 'b') = False by simp,
          show (('u' : Char) = 'f') = False by simp,
          show (('u' : Char) = 'n') = False by simp,
          show (('u' : Char) = 'r') = False by simp,
          show (('u' : Char) = 't') = False by simp,
          show (('u' : Char) = 'u') = True by simp,
          if_true, if_false, ite_true, ite_false]
        rw [parseHex4_hexDigit4 c.toNat _ (by omega)]
        have hn1 : ¬ (55296 ≤ c.toNat ∧ c.toNat < 56320) := by omega
        have hn2 : ¬ (56320 ≤ c.toNat ∧ c.toNat < 57344) := by omega
        simp only [hn1, hn2, if_false, ite_false]
        rw [ih rest f hlt]
        simp [Char.ofNat_toNat]
      · have hesc : escapeChar c = [c] := by
          rw [escapeChar, if_neg h1, if_neg h2, if_neg h3, if_neg h4, if_neg h5,
              if_neg h6, if_neg h7, if_neg h8]
        have hlt : (encodeStrBody cs).length < f := by
          rw [hesc] at hf
          simp at hf
          omega
        rw [hb, hesc]
        show parseStrBody (f + 1) (c :: (encodeStrBody cs ++ '"' :: rest))
            = some (c :: cs, rest)
        rw [parseStrBody.eq_def]
        simp only [h1, h2, h8, if_false, ite_false, if_neg]
        simp [h1, h2, h8, ih rest f hlt]

theorem printArrItems_cons2 (j j2 : Json) (rest : List Json) :
    printArrItems (j :: j2 :: rest) = printJson j ++ ',' :: printArrItems (j2 :: rest) := rfl

theorem printObjItems_cons2 (e e2 : Chars × Json) (rest : List (Chars × Json)) :
    printObjItems (e :: e2 :: rest) =
      encodeStr e.1 ++ ':' :: printJson e.2 ++ ',' :: printObjItems (e2 :: rest) := rfl

theorem printObjItems_one (e : Chars × Json) :
    printObjItems [e] = encodeStr e.1 ++ ':' :: printJson e.2 := rfl

theorem parseVal_arr_step (fuel : Nat) (x : Chars) (c2 : Char) (r2 : Chars)
    (hskip : skipWs x = c2 :: r2) (hne : c2 ≠ ']') :
    parseVal (fuel + 1) ('[' :: x) =
      (parseArrItems fuel (c2 :: r2)).map (fun pr => (Json.arr pr.1, pr.2)) := by
  show (match skipWs x with
    | [] => none
    | c2 :: r2 =>
      if c2 = ']' then some (Json.arr [], r2)
      else (parseArrItems fuel (c2 :: r2)).map (fun pr => (Json.arr pr.1, pr.2)))
    = (parseArrItems fuel (c2 :: r2)).map (fun pr => (Json.arr pr.1, pr.2))
  rw [hskip]
  simp [hne]

theorem parseVal_obj_step (fuel : Nat) (x : Chars) (c2 : Char) (r2 : Chars)
    (hskip : skipWs x = c2 :: r2) (hne : c2 ≠ rbrace) :
    parseVal (fuel + 1) (lbrace :: x) =
      (parseObjItems fuel (c2 :: r2)).map (fun pr => (Json.obj pr.1, pr.2)) := by
  show (match skipWs x with
    | [] => none
    | c2 :: r2 =>
      if c2 = rbrace then some (Json.obj [], r2)
      else (parseObjItems fuel (c2 :: r2)).map (fun pr => (Json.obj pr.1, pr.2)))
    = (parseObjItems fuel (c2 :: r2)).map (fun pr => (Json.obj pr.1, pr.2))
  rw [hskip]
  simp [hne]

mutual

theorem parseVal_print : ∀ (j : Json) (rest : Chars) (fuel : Nat),
    numFree j = true → jsonFuel j ≤ fuel →
    parseVal fuel (printJson j ++ rest) = some (j, rest)
  | j, _, 0, _, hf => absurd hf (by have := jsonFuel_pos j; omega)
  | j, rest, fuel + 1, hnf, hf => by
    cases j with
    | null => rfl
    | bool b => cases b <;> rfl
    | num n => simp [numFree] at hnf
    | str s =>
      show (parseStrBody (((encodeStrBody s ++ ['"']) ++ rest).length + 1)
          ((encodeStrBody s ++ ['"']) ++ rest)).map
            (fun pr => (Json.str pr.1, pr.2)) = some (Json.str s, rest)
      have hr : (encodeStrBody s ++ ['"']) ++ rest = encodeStrBody s ++ '"' :: rest := by
        simp
      rw [hr, parseStrBody_round s rest _
        (by simp only [List.length_append, List.length_cons]; omega)]
      rfl
    | arr items =>
      cases items with
      | nil => rfl
      | cons i is =>
        have hnf2 : numFree i = true ∧ numFreeArr is = true := by
          simpa [numFree, numFreeArr, Bool.and_eq_true] using hnf
        show parseVal (fuel + 1) ('[' :: ((printArrItems (i :: is) ++ [']']) ++ rest))
            = some (Json.arr (i :: is), rest)
        obtain ⟨c, t, hpr, hws, hnb, hnr, hnc⟩ := printJson_head i hnf2.1
        have hhead : ∃ u, printArrItems (i :: is) ++ (']' :: rest) = c :: u := by
          cases is with
          | nil => exact ⟨t ++ ']' :: rest, by rw [printArrItems, hpr]; simp⟩
          | cons i2 is2 =>
            exact ⟨(t ++ ',' :: printArrItems (i2 :: is2)) ++ ']' :: rest, by
              rw [printArrItems_cons2, hpr]; simp⟩
        obtain ⟨u, hu⟩ := hhead
        have hassoc : (printArrItems (i :: is) ++ [']']) ++ rest =
            printArrItems (i :: is) ++ (']' :: rest) := by simp
        rw [hassoc, hu]
        rw [parseVal_arr_step fuel (c :: u) c u (skipWs_cons_of u hws) hnb]
        rw [← hu]
        rw [parseArrItems_print (i :: is) rest fuel hnf
          (by simp only [jsonFuel] at hf; omega) (by simp)]
        rfl
    | obj entries =>
      cases entries with
      | nil => rfl
      | cons e es =>
        obtain ⟨k, v⟩ := e
        have hnf2 : numFree v = true ∧ numFreeObj es = true := by
          simpa [numFree, numFreeObj, Bool.and_eq_true] using hnf
        show parseVal (fuel + 1)
            (lbrace :: ((printObjItems ((k, v) :: es) ++ [rbrace]) ++ rest))
            = some (Json.obj ((k, v) :: es), rest)
        have hhead : ∃ u, printObjItems ((k, v) :: es) ++ (rbrace :: rest) = '"' :: u := by
          cases es with
          | nil =>
            exact ⟨(encodeStrBody k ++ ['"']) ++ ':' :: printJson v ++ rbrace :: rest, by
              rw [printObjItems_one]; simp [encodeStr]⟩
          | cons e2 es2 =>
            exact ⟨(encodeStrBody k ++ ['"']) ++
              (':' :: printJson v ++ ',' :: printObjItems (e2 :: es2)) ++ rbrace :: rest, by
              rw [printObjItems_cons2]; simp [encodeStr]⟩
        obtain ⟨u, hu⟩ := hhead
        have hassoc : (printObjItems ((k, v) :: es) ++ [rbrace]) ++ rest =
            printObjItems ((k, v) :: es) ++ (rbrace :: rest) := by simp
        rw [hassoc, hu]
        rw [parseVal_obj_step fuel ('"' :: u) '"' u
          (skipWs_cons_of u (by decide)) (by decide)]
        rw [← hu]
        rw [parseObjItems_print ((k, v) :: es) rest fuel hnf
          (by simp only [jsonFuel] at hf; omega) (by simp)]
        rfl
termination_by j rest fuel hnf hf => fuel

theorem parseArrItems_print : ∀ (items : List Json) (rest : Chars) (fuel : Nat),
    numFreeArr items = true → arrFuel items ≤ fuel → items ≠ [] →
    parseArrItems fuel (printArrItems items ++ ']' :: rest) = some (items, rest)
  | [], _, _, _, _, hne => absurd rfl hne
  | [i], _, 0, _, hf, _ => absurd hf (by simp only [arrFuel]; omega)
  | [i], rest, fuel + 1, hnf, hf, _ => by
    have hnf1 : numFree i = true := by
      simpa [numFreeArr, Bool.and_eq_true] using hnf
    rw [parseArrItems]
    rw [show printArrItems [i] = printJson i from rfl]
    rw [parseVal_print i (']' :: rest) fuel hnf1
      (by simp only [arrFuel, jsonFuel] at hf ⊢; omega)]
    simp only
    rw [skipWs_cons_of rest (by decide)]
    simp
  | i :: i2 :: is, _, 0, _, hf, _ => by
    exact absurd hf (by simp only [arrFuel]; have := jsonFuel_pos i; omega)
  | i :: i2 :: is, rest, fuel + 1, hnf, hf, _ => by
    have hnf1 : numFree i = true ∧ numFreeArr (i2 :: is) = true := by
      simpa [numFreeArr, Bool.and_eq_true] using hnf
    rw [parseArrItems]
    rw [printArrItems_cons2]
    have hassoc : (printJson i ++ ',' :: printArrItems (i2 :: is)) ++ ']' :: rest
        = printJson i ++ (',' :: (printArrItems (i2 :: is) ++ ']' :: rest)) := by
      simp
    rw [hassoc]
    rw [parseVal_print i _ fuel hnf1.1 (by simp only [arrFuel] at hf; omega)]
    simp only
    rw [skipWs_cons_of _ (by decide)]
    simp only [show ((',' : Char) = ',') = True by simp, if_true, ite_true]
    rw [parseArrItems_print (i2 :: is) rest fuel hnf1.2
      (by simp only [arrFuel] at hf ⊢; omega) (by simp)]
    rfl
termination_by items rest fuel h1 h2 h3 => fuel

theorem parseObjItems_print : ∀ (entries : List (Chars × Json)) (rest : Chars) (fuel : Nat),
    numFreeObj entries = true → objFuel entries ≤ fuel → entries ≠ [] →
    parseObjItems fuel (printObjItems entries ++ rbrace :: rest) = some (entries, rest)
  | [], _, _, _, _, hne => absurd rfl hne
  | [(k, v)], _, 0, _, hf, _ => absurd hf (by simp only [objFuel]; omega)
  | [(k, v)], rest, fuel + 1, hnf, hf, _ => by
    have hnf1 : numFree v = true := by
      simpa [numFreeObj, Bool.and_eq_true] using hnf
    rw [parseObjItems]
    rw [show printObjItems [(k, v)] = encodeStr k ++ ':' :: printJson v from rfl]
    have hshape : (encodeStr k ++ ':' :: printJson v) ++ rbrace :: rest =
        '"' :: ((encodeStrBody k ++ ['"']) ++
          (':' :: (printJson v ++ rbrace :: rest))) := by
      simp [encodeStr]
    rw [hshape]
    rw [skipWs_cons_of _ (by decide)]
    simp only [show (('"' : Char) = '"') = True by simp, if_true, ite_true]
    have hr : (encodeStrBody k ++ ['"']) ++ (':' :: (printJson v ++ rbrace :: rest)) =
        encodeStrBody k ++ '"' :: (':' :: (printJson v ++ rbrace :: rest)) := by
      simp
    rw [hr, parseStrBody_round k _ _
      (by simp only [List.length_append, List.length_cons]; omega)]
    simp only
    rw [skipWs_cons_of _ (by decide)]
    simp only [show ((':' : Char) = ':') = True by simp, if_true, ite_true]
    rw [parseVal_print v (rbrace :: rest) fuel hnf1
      (by simp only [objFuel] at hf; omega)]
    simp only
    rw [skipWs_cons_of rest (by decide)]
    simp only [show (rbrace = ',') = False by decide,
      show (rbrace = rbrace) = True by simp, if_true, if_false, ite_true, ite_false]
  | (k, v) :: e2 :: es, _, 0, _, hf, _ => by
    exact absurd hf (by simp only [objFuel]; have := jsonFuel_pos v; omega)
  | (k, v) :: e2 :: es, rest, fuel + 1, hnf, hf, _ => by
    have hnf1 : numFree v = true ∧ numFreeObj (e2 :: es) = true := by
      simpa [numFreeObj, Bool.and_eq_true] using hnf
    rw [parseObjItems]
    rw [printObjItems_cons2]
    have hshape : ((encodeStr k ++ ':' :: printJson v ++ ',' :: printObjItems (e2 :: es))
        ++ rbrace :: rest) =
        '"' :: ((encodeStrBody k ++ ['"']) ++
          (':' :: (printJson v ++ ',' :: (printObjItems (e2 :: es) ++ rbrace :: rest)))) := by
      simp [encodeStr]
    rw [hshape]
    rw [skipWs_cons_of _ (by decide)]
    simp only [show (('"' : Char) = '"') = True by simp, if_true, ite_true]
    have hr : (encodeStrBody k ++ ['"']) ++
        (':' :: (printJson v ++ ',' :: (printObjItems (e2 :: es) ++ rbrace :: rest))) =
        encodeStrBody k ++
          '"' :: (':' :: (printJson v ++ ',' :: (printObjItems (e2 :: es) ++ rbrace :: rest))) := by
      simp
    rw [hr, parseStrBody_round k _ _
      (by simp only [List.length_append, List.length_cons]; omega)]
    simp only
    rw [skipWs_cons_of _ (by decide)]
    simp only [show ((':' : Char) = ':') = True by simp, if_true, ite_true]
    rw [parseVal_print v _ fuel hnf1.1 (by simp only [objFuel] at hf; omega)]
    simp only
    rw [skipWs_cons_of _ (by decide)]
    simp only [show ((',' : Char) = ',') = True by simp, if_true, ite_true]
    rw [parseObjItems_print (e2 :: es) rest fuel hnf1.2
      (by simp only [objFuel] at hf ⊢; omega) (by simp)]
    rfl
termination_by entries rest fuel h1 h2 h3 => fuel

end

mutual

theorem jsonFuel_le : ∀ (j : Json), numFree j = true →
    jsonFuel j ≤ (printJson j).length
  | .null, _ => by decide
  | .bool b, _ => by cases b <;> decide
  | .num _, h => by simp [numFree] at h
  | .str s, _ => by
    simp [jsonFuel, printJson, encodeStr]
  | .arr items, h => by
    have ha := arrFuel_le items (by simpa [numFree] using h)
    simp only [jsonFuel, printJson, List.length_cons, List.length_append]
    simp at ha ⊢
    omega
  | .obj entries, h => by
    have ho := objFuel_le entries (by simpa [numFree] using h)
    simp only [jsonFuel, printJson, List.length_cons, List.length_append]
    simp at ho ⊢
    omega

theorem arrFuel_le : ∀ (items : List Json), numFreeArr items = true →
    arrFuel items ≤ (printArrItems items).length + 1
  | [], _ => by simp [arrFuel, printArrItems]
  | [j], h => by
    have hb := jsonFuel_le j (by simpa [numFreeArr, Bool.and_eq_true] using h)
    simp only [arrFuel]
    rw [show printArrItems [j] = printJson j from rfl]
    omega
  | j :: j2 :: is, h => by
    have hh : numFree j = true ∧ numFreeArr (j2 :: is) = true := by
      simpa [numFreeArr, Bool.and_eq_true] using h
    have hb := jsonFuel_le j hh.1
    have ha := arrFuel_le (j2 :: is) hh.2
    simp only [arrFuel] at ha ⊢
    rw [printArrItems_cons2]
    simp only [List.length_append, List.length_cons]
    omega

theorem objFuel_le : ∀ (entries : List (Chars × Json)), numFreeObj entries = true →
    objFuel entries ≤ (printObjItems entries).length + 1
  | [], _ => by simp [objFuel, printObjItems]
  | [(k, v)], h => by
    have hb := jsonFuel_le v (by simpa [numFreeObj, Bool.and_eq_true] using h)
    simp only [objFuel]
    rw [printObjItems_one]
    simp only [List.length_append, List.length_cons]
    omega
  | (k, v) :: e2 :: es, h => by
    have hh : numFree v = true ∧ numFreeObj (e2 :: es) = true := by
      simpa [numFreeObj, Bool.and_eq_true] using h
    have hb := jsonFuel_le v hh.1
    have ho := objFuel_le (e2 :: es) hh.2
    simp only [objFuel] at ho ⊢
    rw [printObjItems_cons2]
    simp only [List.length_append, List.length_cons]
    omega

end

/-- The JSON round trip: parsing a printed number-free value yields the
value back. -/
theorem parseJson_print (j : Json) (h : numFree j = true) :
    parseJson (printJson j) = some j := by
  unfold parseJson
  have h1 : parseVal ((printJson j).length + 1) (printJson j ++ []) = some (j, []) :=
    parseVal_print j [] _ h (by have := jsonFuel_le j h; omega)
  rw [List.append_nil] at h1
  rw [h1]
  rfl

/- ===== `schema.ts`: the Zod audit-entry schema ===== -/

/-- `ACTION_TYPES` from `schema.ts`: the valid action types. -/
def ACTION_TYPES : List Chars :=
  ["file_read".data, "file_write".data, "file_edit".data, "browser".data,
   "api_call".data, "exec".data, "message_send".data, "config_change".data,
   "other".data]

/-- A parsed `ContextSchema` value: three optional string fields. -/
structure ContextData where
  channel : Option Chars
  session : Option Chars
  request : Option Chars
deriving DecidableEq

/-- A parsed `ActionSchema` value. -/
structure ActionData where
  type : Chars
  summary : Chars
  artifacts : List Chars
deriving DecidableEq

/-- A parsed `VerificationSchema` value. -/
structure VerificationData where
  suggested : List Chars
  observed : List Chars
deriving DecidableEq

/-- A parsed `AuditEntrySchema` value (the `AuditEntry` record type). -/
structure AuditEntry where
  id : Chars
  ts : Chars
  context : Option ContextData
  action : ActionData
  what_i_did : List Chars
  assumptions : List Chars
  uncertainties : List Chars
  verification : Option VerificationData
deriving DecidableEq

/-- Property lookup on the object produced by `JSON.parse`: a duplicated
key keeps its last value, so the fold lets later entries win. -/
def getField (entries : List (Chars × Json)) (key : Chars) : Option Json :=
  entries.foldl (fun acc kv => if kv.1 = key then some kv.2 else acc) none

/-- `z.string()` applied to a parsed JSON value. -/
def asStr : Json → Option Chars
  | .str s => some s
  | _ => none

/-- `z.array(z.string())` on the element list. -/
def strList : List Json → Option (List Chars)
  | [] => some []
  | j :: js =>
    match asStr j with
    | some s => (strList js).map (fun r => s :: r)
    | none => none

/-- `z.array(z.string())` applied to a parsed JSON value. -/
def asStrList : Json → Option (List Chars)
  | .arr items => strList items
  | _ => none

/-- An optional `z.string()` object field: an absent key parses to
`none`, a present key must hold a string. -/
def optStrField (entries : List (Chars × Json)) (key : Chars) :
    Option (Option Chars) :=
  match getField entries key with
  | none => some none
  | some j => (asStr j).map some

/-- A `z.array(z.string()).default([])` object field: an absent key
parses to the empty list. -/
def strListFieldD (entries : List (Chars × Json)) (key : Chars) :
    Option (List Chars) :=
  match getField entries key with
  | none => some []
  | some j => asStrList j

/-- An optional object-valued field parsed by `sub` when present. -/
def optField {α : Type} (sub : Json → Option α)
    (entries : List (Chars × Json)) (key : Chars) : Option (Option α) :=
  match getField entries key with
  | none => some none
  | some j => (sub j).map some

/-- The anchored pattern behind `z.string().datetime()` (UTC-only, any
sub-second precision): four digits, dash, two digits, dash, two digits,
`T`, three colon-separated two-digit groups, an optional fraction, `Z`. -/
def zodDatetimeRx : Rx :=
  rcat [.bos, .repCls isDigitChar 4, rch '-', .repCls isDigitChar 2, rch '-',
        .repCls isDigitChar 2, rch 'T', .repCls isDigitChar 2, rch ':',
        .repCls isDigitChar 2, rch ':', .repCls isDigitChar 2,
        .opt (.seq (rch '.') (rplus isDigitChar)), rch 'Z', .eos]

/-- `z.string().datetime()` acceptance. -/
def isZodDatetime (s : Chars) : Bool := rxTest zodDatetimeRx s

/-- `ContextSchema.parse` on a parsed JSON value. -/
def contextOfJson : Json → Option ContextData
  | .obj entries =>
    match optStrField entries "channel".data, optStrField entries "session".data,
          optStrField entries "request".data with
    | some ch, some se, some rq => some ⟨ch, se, rq⟩
    | _, _, _ => none
  | _ => none

/-- `ActionSchema.parse` on a parsed JSON value. -/
def actionOfJson : Json → Option ActionData
  | .obj entries =>
    match getField entries "type".data with
    | some (.str ty) =>
      if ACTION_TYPES.contains ty then
        match getField entries "summary".data with
        | some (.str su) =>
          if su.isEmpty then none
          else
            match strListFieldD entries "artifacts".data with
            | some ar => some ⟨ty, su, ar⟩
            | none => none
        | _ => none
      else none
    | _ => none
  | _ => none

/-- `VerificationSchema.parse` on a parsed JSON value. -/
def verificationOfJson : Json → Option VerificationData
  | .obj entries =>
    match strListFieldD entries "suggested".data,
          strListFieldD entries "observed".data with
    | some sg, some ob => some ⟨sg, ob⟩
    | _, _ => none
  | _ => none

/-- `AuditEntrySchema.parse` on a parsed JSON value: `id` is a non-empty
string, `ts` a datetime string, `context`/`verification` optional
sub-objects, `action` a required sub-object, and the three top-level
list fields default to `[]` when absent. -/
def auditEntryOfJson : Json → Option AuditEntry
  | .obj entries =>
    match getField entries "id".data with
    | some (.str i) =>
      if i.isEmpty then none
      else
        match getField entries "ts".data with
        | some (.str ts) =>
          if isZodDatetime ts then
            match optField contextOfJson entries "context".data with
            | some ctx =>
              match (getField entries "action".data).bind actionOfJson with
              | some act =>
                match strListFieldD entries "what_i_did".data,
                      strListFieldD entries "assumptions".data,
                      strListFieldD entries "uncertainties".data with
                | some wid, some asm, some unc =>
                  match optField verificationOfJson entries "verification".data with
                  | some ver => some ⟨i, ts, ctx, act, wid, asm, unc, ver⟩
                  | none => none
                | _, _, _ => none
              | none => none
            | none => none
          else none
        | _ => none
    | _ => none
  | _ => none

/-- The JSON value `JSON.stringify` sees for a parsed context: optional
fields that were absent are not properties of the record. -/
def contextToJson (c : ContextData) : Json :=
  .obj ((match c.channel with
         | some s => [("channel".data, Json.str s)]
         | none => []) ++
        (match c.session with
         | some s => [("session".data, Json.str s)]
         | none => []) ++
        (match c.request with
         | some s => [("request".data, Json.str s)]
         | none => []))

/-- The JSON value for a parsed action (defaults materialized). -/
def actionToJson (a : ActionData) : Json :=
  .obj [("type".data, .str a.type), ("summary".data, .str a.summary),
        ("artifacts".data, .arr (a.artifacts.map .str))]

/-- The JSON value for a parsed verification record. -/
def verificationToJson (v : VerificationData) : Json :=
  .obj [("suggested".data, .arr (v.suggested.map .str)),
        ("observed".data, .arr (v.observed.map .str))]

/-- The JSON value a parsed audit entry stringifies to: keys in schema
declaration order, absent optional sub-objects omitted, defaulted list
fields present. -/
def entryToJson (e : AuditEntry) : Json :=
  .obj ([("id".data, Json.str e.id), ("ts".data, Json.str e.ts)] ++
        (match e.context with
         | some c => [("context".data, contextToJson c)]
         | none => []) ++
        [("action".data, actionToJson e.action),
         ("what_i_did".data, .arr (e.what_i_did.map .str)),
         ("assumptions".data, .arr (e.assumptions.map .str)),
         ("uncertainties".data, .arr (e.uncertainties.map .str))] ++
        (match e.verification with
         | some v => [("verification".data, verificationToJson v)]
         | none => []))

/-- `JSON.stringify(entry)`, the line body written by `appendEntry`. -/
def encodeEntry (e : AuditEntry) : Chars := printJson (entryToJson e)

/-- The record is accepted by `AuditEntrySchema` (the conditions the
schema checks beyond the shape captured by the `AuditEntry` type). -/
def validEntry (e : AuditEntry) : Prop :=
  e.id ≠ [] ∧ isZodDatetime e.ts = true ∧
  ACTION_TYPES.contains e.action.type = true ∧ e.action.summary ≠ []

theorem strList_map (l : List Chars) : strList (l.map Json.str) = some l := by
  induction l with
  | nil => rfl
  | cons s rest ih => simp [strList, asStr, ih]

theorem contextOfJson_roundtrip (c : ContextData) :
    contextOfJson (contextToJson c) = some c := by
  obtain ⟨ch, se, rq⟩ := c
  cases ch <;> cases se <;> cases rq <;>
    simp [contextToJson, contextOfJson, optStrField, getField, asStr]

theorem verificationOfJson_roundtrip (v : VerificationData) :
    verificationOfJson (verificationToJson v) = some v := by
  obtain ⟨sg, ob⟩ := v
  simp [verificationToJson, verificationOfJson, strListFieldD, getField,
        asStrList, strList_map]

theorem actionOfJson_roundtrip (a : ActionData)
    (ht : ACTION_TYPES.contains a.type = true) (hs : a.summary ≠ []) :
    actionOfJson (actionToJson a) = some a := by
  obtain ⟨ty, su, ar⟩ := a
  have hs2 : su.isEmpty = false := by
    cases su with
    | nil => exact absurd rfl hs
    | cons x xs => rfl
  have ht2 : ty ∈ ACTION_TYPES := by simpa using ht
  simp only [actionToJson] at *
  simp [actionOfJson, getField, strListFieldD, asStrList, strList_map,
        ht2, hs2]

theorem auditEntryOfJson_roundtrip (e : AuditEntry) (h : validEntry e) :
    auditEntryOfJson (entryToJson e) = some e := by
  obtain ⟨i, ts, ctx, act, wid, asm, unc, ver⟩ := e
  obtain ⟨h1, h2, h3, h4⟩ := h
  have h1b : i.isEmpty = false := by
    cases i with
    | nil => exact absurd rfl h1
    | cons x xs => rfl
  have hact : actionOfJson (actionToJson act) = some act :=
    actionOfJson_roundtrip act h3 h4
  cases ctx <;> cases ver <;>
    simp [entryToJson, auditEntryOfJson, getField, optField, strListFieldD,
          asStrList, strList_map, h1b, h2, hact, contextOfJson_roundtrip,
          verificationOfJson_roundtrip]

theorem numFreeArr_strs (l : List Chars) :
    numFreeArr (l.map Json.str) = true := by
  induction l with
  | nil => rfl
  | cons s rest ih => simp [numFreeArr, numFree, ih]

theorem numFree_entryToJson (e : AuditEntry) :
    numFree (entryToJson e) = true := by
  obtain ⟨i, ts, ctx, act, wid, asm, unc, ver⟩ := e
  cases ctx with
  | none =>
    cases ver with
    | none =>
      simp [entryToJson, actionToJson, numFree, numFreeObj, numFreeArr,
            numFreeArr_strs]
    | some v =>
      obtain ⟨sg, ob⟩ := v
      simp [entryToJson, actionToJson, verificationToJson, numFree,
            numFreeObj, numFreeArr, numFreeArr_strs]
  | some c =>
    obtain ⟨ch, se, rq⟩ := c
    cases ver with
    | none =>
      cases ch <;> cases se <;> cases rq <;>
        simp [entryToJson, actionToJson, contextToJson, numFree,
              numFreeObj, numFreeArr, numFreeArr_strs]
    | some v =>
      obtain ⟨sg, ob⟩ := v
      cases ch <;> cases se <;> cases rq <;>
        simp [entryToJson, actionToJson, contextToJson, verificationToJson,
              numFree, numFreeObj, numFreeArr, numFreeArr_strs]

/-- C9: For every valid Record (one accepted by the schema),
JSON-encoding it, JSON-decoding the result, and re-validating with
`AuditEntrySchema` yields a Record equal to the original; the defaulted
optional list fields (`artifacts`, `what_i_did`, `assumptions`,
`uncertainties`, `verification.suggested`, `verification.observed`) are
list-valued components of the resulting record (empty lists rather than
absent when they were defaulted). -/
theorem c9_schema_roundtrip (e : AuditEntry) (h : validEntry e) :
    (parseJson (encodeEntry e)).bind auditEntryOfJson = some e := by
  rw [show encodeEntry e = printJson (entryToJson e) from rfl]
  rw [parseJson_print (entryToJson e) (numFree_entryToJson e)]
  exact auditEntryOfJson_roundtrip e h

def c9Entry : AuditEntry :=
  ⟨"20260131T034656Z-8f3a".data, "2026-01-31T03:46:56.406Z".data, none,
   ⟨"exec".data, "ran tests".data, []⟩, [], [], [], none⟩

theorem c9_schema_roundtrip_witness :
    validEntry c9Entry ∧
      (parseJson (encodeEntry c9Entry)).bind auditEntryOfJson = some c9Entry := by
  have hv : validEntry c9Entry := by
    unfold validEntry
    exact ⟨by decide, by decide, by decide, by decide⟩
  exact ⟨hv, c9_schema_roundtrip c9Entry hv⟩

/- ===== `ledger.ts`: JSONL reading and appending ===== -/

/-- The data of a `JsonlParseError`: the 1-based line number and the
retained `trimmed.slice(0, 100)` preview. -/
structure JsonlFault where
  lineNumber : Nat
  lineContent : Chars
deriving DecidableEq

/-- The line splitting performed by `readline` on the file contents
(`crlfDelay: Infinity`; the ledger writer only emits `\n`): one line per
newline, plus a final line for a nonempty remainder after the last
newline; an empty file has no lines. -/
def splitNl : Chars → List Chars
  | [] => []
  | c :: rest =>
    if c = '\n' then [] :: splitNl rest
    else
      match splitNl rest with
      | [] => [[c]]
      | l :: ls => (c :: l) :: ls

/-- `String.prototype.trim`. -/
def trimJs (s : Chars) : Chars :=
  (((s.dropWhile isJsSpace).reverse).dropWhile isJsSpace).reverse

/-- Processing of one trimmed line: `safeJsonParse` followed by
`AuditEntrySchema.parse`. `none` means the line faults. -/
def lineRec (t : Chars) : Option AuditEntry :=
  (parseJson t).bind auditEntryOfJson

/-- The body of the `readEntries` loop over the remaining lines:
`lineNumber` is the count of lines already consumed.  Returns the
entries yielded, the faults skipped (with `skipInvalid`), and the fault
raised (strict mode stops at it without reading further lines). -/
def readGo (skipInvalid : Bool) (lineNumber : Nat) :
    List Chars → List AuditEntry × List JsonlFault × Option JsonlFault
  | [] => ([], [], none)
  | line :: rest =>
    let n := lineNumber + 1
    let t := trimJs line
    if t.isEmpty then readGo skipInvalid n rest
    else
      match lineRec t with
      | none =>
        if skipInvalid then
          let r := readGo skipInvalid n rest
          (r.1, ⟨n, t.take 100⟩ :: r.2.1, r.2.2)
        else ([], [], some ⟨n, t.take 100⟩)
      | some e =>
        let r := readGo skipInvalid n rest
        (e :: r.1, r.2.1, r.2.2)

/-- `readEntries` over the file contents. -/
def readEntries (skipInvalid : Bool) (content : Chars) :
    List AuditEntry × List JsonlFault × Option JsonlFault :=
  readGo skipInvalid 0 (splitNl content)

/-- `appendEntry`: the file contents after appending one entry. -/
def appendEntry (content : Chars) (e : AuditEntry) : Chars :=
  content ++ encodeEntry e ++ ['\n']

/-- A newline-terminated file with the given lines. -/
def joinLines (ls : List Chars) : Chars :=
  ls.foldr (fun l acc => l ++ '\n' :: acc) []

theorem hexDigitChar_ne_nl (n : Nat) : hexDigitChar n ≠ '\n' := by
  intro e
  have h := hexDigitChar_hex n
  rw [e] at h
  exact absurd h (by decide)

theorem hexDigit4_no_nl (n : Nat) : '\n' ∉ hexDigit4 n := by
  intro hm
  simp only [hexDigit4, List.mem_cons, List.not_mem_nil, or_false] at hm
  rcases hm with hm | hm | hm | hm
  · exact hexDigitChar_ne_nl _ hm.symm
  · exact hexDigitChar_ne_nl _ hm.symm
  · exact hexDigitChar_ne_nl _ hm.symm
  · exact hexDigitChar_ne_nl _ hm.symm

theorem escapeChar_no_nl (c : Char) : '\n' ∉ escapeChar c := by
  unfold escapeChar
  split_ifs with h1 h2 h3 h4 h5 h6 h7 h8
  · decide
  · decide
  · decide
  · decide
  · decide
  · decide
  · decide
  · intro hm
    rcases List.mem_cons.mp hm with e | hm2
    · exact absurd e (by decide)
    rcases List.mem_cons.mp hm2 with e | hm3
    · exact absurd e (by decide)
    exact hexDigit4_no_nl _ hm3
  · intro hm
    exact h5 (List.mem_singleton.mp hm).symm

theorem encodeStr_no_nl (s : Chars) : '\n' ∉ encodeStr s := by
  intro hm
  rcases List.mem_cons.mp hm with e | hm2
  · exact absurd e (by decide)
  rcases List.mem_append.mp hm2 with hb | he
  · rcases List.mem_flatMap.mp hb with ⟨c, _, hc⟩
    exact escapeChar_no_nl c hc
  · exact absurd (List.mem_singleton.mp he) (by decide)

mutual

theorem printJson_no_nl : ∀ (j : Json), numFree j = true → '\n' ∉ printJson j
  | .null, _ => by decide
  | .bool true, _ => by decide
  | .bool false, _ => by decide
  | .num _, h => by simp [numFree] at h
  | .str s, _ => encodeStr_no_nl s
  | .arr items, h => by
    intro hm
    rcases List.mem_cons.mp hm with e | hm2
    · exact absurd e (by decide)
    rcases List.mem_append.mp hm2 with hb | he
    · exact printArrItems_no_nl items (by simpa [numFree] using h) hb
    · exact absurd (List.mem_singleton.mp he) (by decide)
  | .obj entries, h => by
    intro hm
    rcases List.mem_cons.mp hm with e | hm2
    · exact absurd e (by decide)
    rcases List.mem_append.mp hm2 with hb | he
    · exact printObjItems_no_nl entries (by simpa [numFree] using h) hb
    · exact absurd (List.mem_singleton.mp he) (by decide)

theorem printArrItems_no_nl : ∀ (items : List Json), numFreeArr items = true →
    '\n' ∉ printArrItems items
  | [], _ => by decide
  | [j], h =>
    printJson_no_nl j (by simpa [numFreeArr, Bool.and_eq_true] using h)
  | j :: j2 :: is, h => by
    have hh : numFree j = true ∧ numFreeArr (j2 :: is) = true := by
      simpa [numFreeArr, Bool.and_eq_true] using h
    intro hm
    rw [printArrItems_cons2] at hm
    rcases List.mem_append.mp hm with hb | he
    · exact printJson_no_nl j hh.1 hb
    rcases List.mem_cons.mp he with e | hm2
    · exact absurd e (by decide)
    exact printArrItems_no_nl (j2 :: is) hh.2 hm2

theorem printObjItems_no_nl : ∀ (entries : List (Chars × Json)),
    numFreeObj entries = true → '\n' ∉ printObjItems entries
  | [], _ => by decide
  | [(k, v)], h => by
    have hv : numFree v = true := by simpa [numFreeObj, Bool.and_eq_true] using h
    intro hm
    rw [printObjItems_one] at hm
    rcases List.mem_append.mp hm with hb | he
    · exact encodeStr_no_nl k hb
    rcases List.mem_cons.mp he with e | hm2
    · exact absurd e (by decide)
    exact printJson_no_nl v hv hm2
  | (k, v) :: e2 :: es, h => by
    have hh : numFree v = true ∧ numFreeObj (e2 :: es) = true := by
      simpa [numFreeObj, Bool.and_eq_true] using h
    intro hm
    rw [printObjItems_cons2] at hm
    rcases List.mem_append.mp hm with hb | he
    · rcases List.mem_append.mp hb with ha | hp
      · exact encodeStr_no_nl k ha
      rcases List.mem_cons.mp hp with e | hm2
      · exact absurd e (by decide)
      exact printJson_no_nl v hh.1 hm2
    rcases List.mem_cons.mp he with e | hm3
    · exact absurd e (by decide)
    exact printObjItems_no_nl (e2 :: es) hh.2 hm3

end

theorem splitNl_line (l rest : Chars) (h : '\n' ∉ l) :
    splitNl (l ++ '\n' :: rest) = l :: splitNl rest := by
  induction l with
  | nil => simp [splitNl]
  | cons c l2 ih =>
    have hc : ¬(c = '\n') := fun e => h (e ▸ List.mem_cons_self c l2)
    have h2 : '\n' ∉ l2 := fun m => h (List.mem_cons_of_mem c m)
    simp only [List.cons_append, splitNl, hc, if_false, ite_false, List.append_eq]
    rw [ih h2]

theorem splitNl_joinLines (ls : List Chars) (h : ∀ l ∈ ls, '\n' ∉ l) :
    splitNl (joinLines ls) = ls := by
  induction ls with
  | nil => rfl
  | cons l rest ih =>
    have hl : '\n' ∉ l := h l (List.mem_cons_self l rest)
    have hr : ∀ x ∈ rest, '\n' ∉ x := fun x hx => h x (List.mem_cons_of_mem l hx)
    show splitNl (l ++ '\n' :: joinLines rest) = l :: rest
    rw [splitNl_line l (joinLines rest) hl, ih hr]

theorem joinLines_append_one (ls : List Chars) (l : Chars) :
    joinLines (ls ++ [l]) = joinLines ls ++ (l ++ ['\n']) := by
  induction ls with
  | nil => rfl
  | cons x rest ih =>
    show x ++ '\n' :: joinLines (rest ++ [l]) = (x ++ '\n' :: joinLines rest) ++ _
    rw [ih]
    simp

theorem trimJs_of_ends (c d : Char) (m : Chars) (hc : isJsSpace c = false)
    (hd : isJsSpace d = false) : trimJs (c :: (m ++ [d])) = c :: (m ++ [d]) := by
  unfold trimJs
  rw [List.dropWhile_cons_of_neg (by simp [hc])]
  rw [show (c :: (m ++ [d])).reverse = d :: (c :: m).reverse by simp]
  rw [List.dropWhile_cons_of_neg (by simp [hd])]
  simp

/-- The record a physical line yields, if any: a blank line yields
nothing, otherwise the trimmed line must parse and validate. -/
def lineOk (l : Chars) : Option AuditEntry :=
  if (trimJs l).isEmpty then none else lineRec (trimJs l)

theorem trimJs_printObj (L : List (Chars × Json)) :
    trimJs (printJson (.obj L)) = printJson (.obj L) := by
  show trimJs (lbrace :: (printObjItems L ++ [rbrace])) = _
  rw [trimJs_of_ends lbrace rbrace (printObjItems L) (by decide) (by decide)]
  rfl

theorem lineOk_encode (e : AuditEntry) (h : validEntry e) :
    lineOk (encodeEntry e) = some e := by
  obtain ⟨L, hL⟩ : ∃ L, entryToJson e = .obj L := ⟨_, rfl⟩
  unfold lineOk
  rw [show encodeEntry e = printJson (entryToJson e) from rfl, hL, trimJs_printObj]
  rw [show (printJson (.obj L)).isEmpty = false from rfl]
  simp only [Bool.false_eq_true, if_false, ite_false]
  rw [← hL]
  show lineRec (printJson (entryToJson e)) = some e
  unfold lineRec
  rw [parseJson_print _ (numFree_entryToJson e)]
  exact auditEntryOfJson_roundtrip e h

theorem readGo_all_ok : ∀ (ls : List Chars) (n : Nat),
    (∀ l ∈ ls, (lineOk l).isSome) →
    readGo false n ls = (ls.filterMap lineOk, [], none)
  | [], _, _ => rfl
  | l :: rest, n, h => by
    have hl := h l (List.mem_cons_self l rest)
    have hr : ∀ x ∈ rest, (lineOk x).isSome :=
      fun x hx => h x (List.mem_cons_of_mem l hx)
    have ih := readGo_all_ok rest (n + 1) hr
    rcases he : lineOk l with _ | e
    · rw [he] at hl
      exact absurd hl (by decide)
    · have ht : (trimJs l).isEmpty = false := by
        by_contra hx
        have ht2 : (trimJs l).isEmpty = true := by
          revert hx
          cases (trimJs l).isEmpty <;> simp
        simp [lineOk, ht2] at he
      have hrec : lineRec (trimJs l) = some e := by
        unfold lineOk at he
        rwa [if_neg (by simp [ht])] at he
      simp [readGo, ht, hrec, ih, List.filterMap_cons, he]

theorem filterMap_lineOk_length : ∀ (ls : List Chars),
    (∀ l ∈ ls, (lineOk l).isSome) →
    (ls.filterMap lineOk).length = ls.length
  | [], _ => rfl
  | l :: rest, h => by
    have hl := h l (List.mem_cons_self l rest)
    have hr : ∀ x ∈ rest, (lineOk x).isSome :=
      fun x hx => h x (List.mem_cons_of_mem l hx)
    rcases he : lineOk l with _ | e
    · rw [he] at hl
      exact absurd hl (by decide)
    · simp [List.filterMap_cons, he, filterMap_lineOk_length rest hr]

/-- C3: For every ledger file containing N schema-valid lines and every
valid record r, after one successful `appendEntry(r)` call, `readEntries`
yields exactly N+1 records, whose first N are identical (by id and
content) to the N records yielded before the append, and whose last
record equals r (the file is modelled by its newline-terminated lines;
each line is newline-free, non-blank after trimming, and parses and
validates). -/
theorem c3_append_only (ls : List Chars) (e : AuditEntry)
    (hl : ∀ l ∈ ls, '\n' ∉ l ∧ (lineOk l).isSome) (he : validEntry e) :
    (readEntries false (appendEntry (joinLines ls) e)).1 =
      (readEntries false (joinLines ls)).1 ++ [e] ∧
    (readEntries false (joinLines ls)).1.length = ls.length ∧
    (readEntries false (appendEntry (joinLines ls) e)).1.length = ls.length + 1 ∧
    (readEntries false (joinLines ls)).2.2 = none ∧
    (readEntries false (appendEntry (joinLines ls) e)).2.2 = none := by
  have h1 : ∀ l ∈ ls, '\n' ∉ l := fun l m => (hl l m).1
  have h2 : ∀ l ∈ ls, (lineOk l).isSome := fun l m => (hl l m).2
  have hb : readEntries false (joinLines ls) = (ls.filterMap lineOk, [], none) := by
    unfold readEntries
    rw [splitNl_joinLines ls h1]
    exact readGo_all_ok ls 0 h2
  have henc : '\n' ∉ encodeEntry e := printJson_no_nl _ (numFree_entryToJson e)
  have happ : appendEntry (joinLines ls) e = joinLines (ls ++ [encodeEntry e]) := by
    rw [joinLines_append_one]
    unfold appendEntry
    simp [List.append_assoc]
  have h1b : ∀ l ∈ ls ++ [encodeEntry e], '\n' ∉ l := by
    intro l m
    rcases List.mem_append.mp m with m | m
    · exact h1 l m
    · rw [List.mem_singleton.mp m]
      exact henc
  have h2b : ∀ l ∈ ls ++ [encodeEntry e], (lineOk l).isSome := by
    intro l m
    rcases List.mem_append.mp m with m | m
    · exact h2 l m
    · rw [List.mem_singleton.mp m, lineOk_encode e he]
      rfl
  have ha : readEntries false (appendEntry (joinLines ls) e) =
      ((ls ++ [encodeEntry e]).filterMap lineOk, [], none) := by
    rw [happ]
    unfold readEntries
    rw [splitNl_joinLines _ h1b]
    exact readGo_all_ok _ 0 h2b
  have hfm : (ls ++ [encodeEntry e]).filterMap lineOk =
      ls.filterMap lineOk ++ [e] := by
    rw [List.filterMap_append]
    simp [List.filterMap_cons, lineOk_encode e he]
  refine ⟨?_, ?_, ?_, ?_, ?_⟩
  · rw [ha, hb, hfm]
  · rw [hb]
    exact filterMap_lineOk_length ls h2
  · rw [ha, hfm]
    simp [filterMap_lineOk_length ls h2]
  · rw [hb]
  · rw [ha]

def c3Line : Chars :=
  encodeEntry ⟨"a".data, "2026-01-31T03:46:56Z".data, none,
               ⟨"other".data, "x".data, []⟩, [], [], [], none⟩

def c3NewEntry : AuditEntry :=
  ⟨"b".data, "2026-02-01T00:00:00Z".data, none,
   ⟨"exec".data, "y".data, []⟩, [], [], [], none⟩

theorem c3_append_only_witness :
    (readEntries false (appendEntry (joinLines [c3Line]) c3NewEntry)).1 =
      (readEntries false (joinLines [c3Line])).1 ++ [c3NewEntry] ∧
    (readEntries false (joinLines [c3Line])).1.length = 1 ∧
    (readEntries false (appendEntry (joinLines [c3Line]) c3NewEntry)).1.length = 2 ∧
    (readEntries false (joinLines [c3Line])).2.2 = none ∧
    (readEntries false (appendEntry (joinLines [c3Line]) c3NewEntry)).2.2 = none := by
  have hv1 : validEntry ⟨"a".data, "2026-01-31T03:46:56Z".data, none,
      ⟨"other".data, "x".data, []⟩, [], [], [], none⟩ := by
    unfold validEntry
    exact ⟨by decide, by decide, by decide, by decide⟩
  have hv2 : validEntry c3NewEntry := by
    unfold validEntry
    exact ⟨by decide, by decide, by decide, by decide⟩
  have hl : ∀ l ∈ [c3Line], '\n' ∉ l ∧ (lineOk l).isSome := by
    intro l m
    rw [List.mem_singleton.mp m]
    refine ⟨printJson_no_nl _ (numFree_entryToJson _), ?_⟩
    rw [show c3Line = encodeEntry _ from rfl, lineOk_encode _ hv1]
    rfl
  exact c3_append_only [c3Line] c3NewEntry hl hv2

theorem lineOk_elim {l : Chars} {e : AuditEntry} (h : lineOk l = some e) :
    (trimJs l).isEmpty = false ∧ lineRec (trimJs l) = some e := by
  by_cases ht : (trimJs l).isEmpty = true
  · simp [lineOk, ht] at h
  · have ht2 : (trimJs l).isEmpty = false := by
      revert ht
      cases (trimJs l).isEmpty <;> simp
    unfold lineOk at h
    rw [if_neg (by simp [ht2])] at h
    exact ⟨ht2, h⟩

/-- C4: For every ledger file whose lines are [valid record, non-JSON
text, valid record], `readEntries` in strict (default) mode yields the
first record and then raises a `JsonlParseError` whose `lineNumber` is 2,
yielding no further records; `readEntries` with `skipInvalid` yields
exactly the two valid records in file order (recording the line-2 fault
as skipped). -/
theorem c4_fault_isolation (l1 nj l2 : Chars) (r1 r2 : AuditEntry)
    (hn1 : '\n' ∉ l1) (hn2 : '\n' ∉ nj) (hn3 : '\n' ∉ l2)
    (hr1 : lineOk l1 = some r1) (hr2 : lineOk l2 = some r2)
    (hte : (trimJs nj).isEmpty = false)
    (hp : parseJson (trimJs nj) = none) :
    readEntries false (joinLines [l1, nj, l2]) =
      ([r1], [], some ⟨2, (trimJs nj).take 100⟩) ∧
    readEntries true (joinLines [l1, nj, l2]) =
      ([r1, r2], [⟨2, (trimJs nj).take 100⟩], none) := by
  obtain ⟨ht1, hc1⟩ := lineOk_elim hr1
  obtain ⟨ht3, hc3⟩ := lineOk_elim hr2
  have hsplit : splitNl (joinLines [l1, nj, l2]) = [l1, nj, l2] := by
    apply splitNl_joinLines
    intro l m
    rcases (by simpa using m : l = l1 ∨ l = nj ∨ l = l2) with rfl | rfl | rfl
    · exact hn1
    · exact hn2
    · exact hn3
  have hrecnj : lineRec (trimJs nj) = none := by
    unfold lineRec
    rw [hp]
    rfl
  constructor
  · unfold readEntries
    rw [hsplit]
    simp [readGo, ht1, hc1, hte, hrecnj]
  · unfold readEntries
    rw [hsplit]
    simp [readGo, ht1, hc1, hte, hrecnj, ht3, hc3]

def c4Entry1 : AuditEntry :=
  ⟨"c".data, "2026-01-31T03:46:56Z".data, none,
   ⟨"other".data, "x".data, []⟩, [], [], [], none⟩

def c4Entry2 : AuditEntry :=
  ⟨"d".data, "2026-01-31T03:46:57Z".data, none,
   ⟨"exec".data, "y".data, []⟩, [], [], [], none⟩

def c4Bad : Chars := "not json".data

theorem c4_fault_isolation_witness :
    readEntries false (joinLines [encodeEntry c4Entry1, c4Bad, encodeEntry c4Entry2]) =
      ([c4Entry1], [], some ⟨2, (trimJs c4Bad).take 100⟩) ∧
    readEntries true (joinLines [encodeEntry c4Entry1, c4Bad, encodeEntry c4Entry2]) =
      ([c4Entry1, c4Entry2], [⟨2, (trimJs c4Bad).take 100⟩], none) := by
  have hv1 : validEntry c4Entry1 := by
    unfold validEntry
    exact ⟨by decide, by decide, by decide, by decide⟩
  have hv2 : validEntry c4Entry2 := by
    unfold validEntry
    exact ⟨by decide, by decide, by decide, by decide⟩
  exact c4_fault_isolation (encodeEntry c4Entry1) c4Bad (encodeEntry c4Entry2)
    c4Entry1 c4Entry2
    (printJson_no_nl _ (numFree_entryToJson _)) (by decide)
    (printJson_no_nl _ (numFree_entryToJson _))
    (lineOk_encode c4Entry1 hv1) (lineOk_encode c4Entry2 hv2)
    (by rfl) (by rfl)

/-- C10: In `readEntries`, the `lineNumber` carried by a
`JsonlParseError` is the 1-based physical line index of the offending
line in the file, counting blank/whitespace-only lines that were
silently skipped: for a file whose lines are [blank, invalid], the
raised fault reports line 2, not line 1. -/
theorem c10_fault_line_number (b nj : Chars) (hb : trimJs b = [])
    (hbn : '\n' ∉ b) (hn2 : '\n' ∉ nj)
    (hte : (trimJs nj).isEmpty = false)
    (hrec : lineRec (trimJs nj) = none) :
    readEntries false (joinLines [b, nj]) =
      ([], [], some ⟨2, (trimJs nj).take 100⟩) := by
  have hsplit : splitNl (joinLines [b, nj]) = [b, nj] := by
    apply splitNl_joinLines
    intro l m
    rcases (by simpa using m : l = b ∨ l = nj) with rfl | rfl
    · exact hbn
    · exact hn2
  unfold readEntries
  rw [hsplit]
  simp [readGo, hb, hte, hrec]

theorem c10_fault_line_number_witness :
    readEntries false (joinLines [" ".data, "nope".data]) =
      ([], [], some ⟨2, (trimJs "nope".data).take 100⟩) :=
  c10_fault_line_number " ".data "nope".data (by rfl) (by decide) (by decide)
    (by rfl) (by rfl)
